import Mathlib

/-
  Verification of the pflow-js marking/firing engine (src/pflow.js).

  The JavaScript source is shallowly embedded: markings, deltas, guard
  vectors and capacity vectors are lists of integers indexed by place
  offset; JavaScript objects keyed by label become association lists;
  mutation of the marking becomes explicit state passing; fatal errors
  (assertion failures, property access on undefined) become Option or
  Except results.  Reads of a missing array slot (JS undefined) inside
  the capacity test behave like 0 there, which List.getD with default 0
  reproduces; theorems carry length hypotheses matching the situations
  the claims quantify over, where no out-of-range read occurs.
-/

namespace PFlow

/-- The three model types of the PFlowModel constant. -/
inductive PFlowType
  | petriNet
  | workflow
  | stateMachine
deriving DecidableEq, Repr

/-- A guard record as built by index for an inhibitor arc:
    the inhibiting place label and a delta vector holding -weight
    at that place offset. -/
structure GuardRec where
  label : String
  delta : List Int
deriving DecidableEq, Repr

/-- A transition record: label, role tag, delta vector and the
    label-keyed guards object (association list in insertion order). -/
structure Transition where
  label : String
  role : String
  delta : List Int
  guards : List GuardRec
deriving DecidableEq, Repr

/-- A place record from the cell constructor: label, initial count,
    capacity (0 means unbounded) and offset into every vector.
    Layout positions are omitted: they never influence the engine. -/
structure PlaceRec where
  label : String
  initial : Int
  capacity : Int
  offset : Nat
deriving DecidableEq, Repr

/-- The out vector of vectorAdd: out[i] = state[i] + delta[i] * multiple,
    computed for every index of state. -/
def vaOut (state delta : List Int) (multiple : Int) : List Int :=
  (List.range state.length).map fun i => state.getD i 0 + delta.getD i 0 * multiple

/-- The ok flag of vectorAdd: false when some entry underflows below 0,
    or when the capacity at that index is positive and the entry
    exceeds it (cap[i] - out[i] < 0). -/
def vaOk (cap state delta : List Int) (multiple : Int) : Bool :=
  (List.range state.length).all fun i =>
    if state.getD i 0 + delta.getD i 0 * multiple < 0 then false
    else if 0 < cap.getD i 0 ∧
        cap.getD i 0 - (state.getD i 0 + delta.getD i 0 * multiple) < 0 then false
    else true

/-- vectorAdd(state, delta, multiple) of the source, with the capacity
    vector passed explicitly (the source closure reads it from the
    model definition). -/
def vectorAdd (cap state delta : List Int) (multiple : Int) : List Int × Bool :=
  (vaOut state delta multiple, vaOk cap state delta multiple)

/-- A model as used by the firing engine: its type, place count,
    capacity vector and transitions. -/
structure Model where
  modelType : PFlowType
  placeCount : Nat
  capacity : List Int
  transitions : List Transition
deriving DecidableEq, Repr

/-- Lookup of def.transitions[action] by label. -/
def Model.findTransition (m : Model) (action : String) : Option Transition :=
  m.transitions.find? fun t => t.label = action

/-- The record returned by testFire: attempted out vector (null when a
    guard is active), ok flag, and the transition role. -/
structure FireResult where
  out : Option (List Int)
  ok : Bool
  role : String
deriving DecidableEq, Repr

/-- guardFails: true when some guard of the transition is active,
    meaning vectorAdd(state, guard.delta, multiple) succeeds. -/
def guardFails (m : Model) (state : List Int) (t : Transition) (multiple : Int) : Bool :=
  t.guards.any fun g => (vectorAdd m.capacity state g.delta multiple).2

/-- testFire: none models the fatal assertion on an unknown action;
    a guard-blocked firing yields out = none with ok = false; otherwise
    the raw vectorAdd outcome is returned with the transition role. -/
def testFire (m : Model) (state : List Int) (action : String) (multiple : Int) :
    Option FireResult :=
  match m.findTransition action with
  | none => none
  | some t =>
    if guardFails m state t multiple then some ⟨none, false, t.role⟩
    else some ⟨some (vaOut state t.delta multiple), vaOk m.capacity state t.delta multiple, t.role⟩

/-- The stateMachine acceptance check of fire: no entry above 1 and
    fewer than two positive entries. -/
def smOk (o : List Int) : Bool :=
  !(o.any fun v => 1 < v) && decide ((o.filter fun v => 0 < v).length < 2)

/-- The workflow branch of fire rebuilds the out vector from an empty
    vector, copying only positive entries (negative entries dropped).
    Iterating over a null out vector writes nothing, leaving zeros. -/
def wfFilter (n : Nat) (o : List Int) : List Int :=
  (List.range n).map fun i => if 0 < o.getD i 0 then o.getD i 0 else 0

/-- The workflow acceptance flag of fire, computed from the raw out
    vector: no entry above 1 and fewer than two positive entries. -/
def wfOk (o : List Int) : Bool :=
  !(o.any fun v => 1 < v) && decide ((o.filter fun v => 0 < v).length < 2)

/-- The commit loop of fire: state[i] = out[i] for every index of out,
    remaining indices of state untouched. -/
def commit (state o : List Int) : List Int :=
  (List.range (max state.length o.length)).map fun i =>
    if i < o.length then o.getD i 0 else state.getD i 0

/-- The value returned by fire together with the marking it leaves
    behind: the (possibly replaced) out vector, the final ok flag, the
    role, and the state after the conditional commit.  The resolve
    callback is invoked exactly when ok is true, the reject callback
    exactly when ok is false. -/
structure FireOutcome where
  out : Option (List Int)
  ok : Bool
  role : String
  newState : List Int
deriving DecidableEq, Repr

/-- The switch statement of fire: mode-specific replacement of the out
    vector and the final ok flag.  The stateMachine branch leaves a
    failed testFire result alone; the workflow branch runs even when
    testFire failed, and iterating over a null out vector leaves the
    freshly allocated empty vector all zero and accepts it. -/
def fireStep (m : Model) (res : FireResult) : Option (List Int) × Bool :=
  match m.modelType with
  | PFlowType.petriNet => (res.out, res.ok)
  | PFlowType.stateMachine =>
    if !res.ok then (res.out, res.ok)
    else
      match res.out with
      | none => (none, true)
      | some o => (some o, smOk o)
  | PFlowType.workflow =>
    match res.out with
    | none => (some (List.replicate m.placeCount 0), true)
    | some o => (some (wfFilter m.placeCount o), wfOk o)

/-- fire: runs testFire, applies the mode-specific post-processing of
    the switch statement, then commits the out vector into the marking
    exactly when the final ok flag is true. -/
def fire (m : Model) (state : List Int) (action : String) (multiple : Int) :
    Option FireOutcome :=
  (testFire m state action multiple).map fun res =>
    ⟨(fireStep m res).1, (fireStep m res).2, res.role,
     if (fireStep m res).2 then
       match (fireStep m res).1 with
       | none => state
       | some o => commit state o
     else state⟩

/-- A dispatch event: target schema, action name and multiplier. -/
structure Event where
  schema : String
  action : String
  multiple : Int
deriving DecidableEq, Repr

/-- A history entry pushed by the resolve callback of dispatch:
    sequence number, the event, and the resulting marking.  The wall
    clock timestamp is omitted (not semantic). -/
structure HistEntry where
  seq : Nat
  event : Event
  state : List Int
deriving DecidableEq, Repr

/-- A registered model of a stream: its schema key, the engine model
    and the initial vector the marking is lazily created from. -/
structure StreamModel where
  schema : String
  model : Model
  initial : List Int
deriving DecidableEq, Repr

/-- The mutable state of a PFlowStream: the schema-keyed marking map,
    sequence counter, history, and whether the reload, fail and every
    handler slots hold a handler. -/
structure StreamState where
  stateMap : List (String × List Int)
  seq : Nat
  history : List HistEntry
  hasReload : Bool
  hasFail : Bool
  hasEvery : Bool
deriving DecidableEq, Repr

/-- Lookup in the schema-keyed marking map. -/
def lookupState (sm : List (String × List Int)) (schema : String) : Option (List Int) :=
  (sm.find? fun kv => kv.1 = schema).map fun kv => kv.2

/-- Map.set semantics on the marking map: replace in place when the key
    is present, append otherwise. -/
def setState (sm : List (String × List Int)) (schema : String) (v : List Int) :
    List (String × List Int) :=
  if sm.any fun kv => kv.1 = schema then
    sm.map fun kv => if kv.1 = schema then (schema, v) else kv
  else sm ++ [(schema, v)]

/-- Map.delete semantics on the marking map. -/
def removeState (sm : List (String × List Int)) (schema : String) :
    List (String × List Int) :=
  sm.filter fun kv => ¬kv.1 = schema

/-- The ways dispatch can throw: an unknown schema, an unknown action
    (assertion inside guardFails), or a TypeError from invoking an
    unregistered reload or fail handler slot. -/
inductive DispatchError
  | modelNotFound
  | actionNotFound
  | handlerMissing
deriving DecidableEq, Repr

/-- dispatch(evt): look up the model, read or lazily initialize the
    marking, run fire.  The resolve callback persists the out vector,
    appends the history entry and increments seq before the reload
    handler slot is invoked, so those mutations survive a TypeError
    thrown when the slot is empty.  The reject callback only invokes
    the fail handler slot.  This is a value-snapshot abstraction: it
    records the marking values at push time and is adequate for
    per-dispatch and rejection properties.  In the source the history
    entry and the state map share the same live out array, which the
    next accepted commit on that schema mutates in place; dispatchRef
    below models that aliasing with an explicit heap of arrays. -/
def dispatch (models : List StreamModel) (s : StreamState) (evt : Event) :
    StreamState × Except DispatchError FireOutcome :=
  match models.find? fun sm => sm.schema = evt.schema with
  | none => (s, Except.error DispatchError.modelNotFound)
  | some sm =>
    let state := (lookupState s.stateMap evt.schema).getD sm.initial
    match fire sm.model state evt.action evt.multiple with
    | none => (s, Except.error DispatchError.actionNotFound)
    | some fo =>
      if fo.ok then
        let outVec := fo.out.getD []
        let s' : StreamState :=
          { s with
            stateMap := setState s.stateMap evt.schema outVec
            history := s.history ++ [⟨s.seq, evt, outVec⟩]
            seq := s.seq + 1 }
        if s.hasReload then (s', Except.ok fo) else (s', Except.error DispatchError.handlerMissing)
      else
        if s.hasFail then (s, Except.ok fo) else (s, Except.error DispatchError.handlerMissing)

/-- restart(): reset the sequence counter, clear the history, and
    delete the persisted marking of every registered model. -/
def restart (models : List StreamModel) (s : StreamState) : StreamState :=
  { s with
    seq := 0
    history := []
    stateMap := models.foldl (fun acc sm => removeState acc sm.schema) s.stateMap }

/-- Folding dispatch over a list of events, keeping only the stream
    state (the return values are discarded as in the JS caller). -/
def dispatchAll (models : List StreamModel) (s : StreamState) (evts : List Event) :
    StreamState :=
  evts.foldl (fun s evt => (dispatch models s evt).1) s

/-- True when dispatching the event from this stream state finds its
    model, runs fire without a fatal error, and the firing is accepted. -/
def acceptedStep (models : List StreamModel) (s : StreamState) (evt : Event) : Bool :=
  match models.find? fun sm => sm.schema = evt.schema with
  | none => false
  | some sm =>
    match fire sm.model ((lookupState s.stateMap evt.schema).getD sm.initial)
        evt.action evt.multiple with
    | none => false
    | some fo => fo.ok

/-- True when every dispatch in the sequence is accepted, each judged
    from the stream state the previous dispatches produced. -/
def allAccepted (models : List StreamModel) (s : StreamState) : List Event → Bool
  | [] => true
  | evt :: rest =>
    acceptedStep models s evt && allAccepted models (dispatch models s evt).1 rest

/-- An arc endpoint as stored in def.arcs: a place reference (label and
    offset), a transition reference (label), or neither (a malformed
    node, JS object with neither field). -/
inductive NodeRef
  | placeRef (label : String) (offset : Nat)
  | transRef (label : String)
  | nullRef
deriving DecidableEq, Repr

/-- An arc record as pushed by the tx and guard connectors. -/
structure Arc where
  source : NodeRef
  target : NodeRef
  weight : Int
  inhibit : Bool
deriving DecidableEq, Repr

/-- The part of a net definition the indexer reads: the place count
    (sizing every delta and guard vector), the transitions, and the
    arc list. -/
structure NetDef where
  placeCount : Nat
  transitions : List Transition
  arcs : List Arc
deriving DecidableEq, Repr

/-- Writing v[i] = x on a JS array: set in place when the index is in
    range, otherwise grow the array (holes read back as 0-like
    undefined in every consumer of these vectors). -/
def writeAt (v : List Int) (i : Nat) (x : Int) : List Int :=
  if i < v.length then v.set i x
  else (v ++ List.replicate (i + 1 - v.length) 0).set i x

/-- Assignment guards[g.label] = g on the label-keyed guards object:
    replace in place when the key exists, append otherwise. -/
def setGuard (gs : List GuardRec) (g : GuardRec) : List GuardRec :=
  if gs.any fun x => x.label = g.label then
    gs.map fun x => if x.label = g.label then g else x
  else gs ++ [g]

/-- Updating the transition object a connector or the indexer refers
    to; transitions are keyed by unique label. -/
def updateTrans (ts : List Transition) (label : String) (f : Transition → Transition) :
    List Transition :=
  ts.map fun t => if t.label = label then f t else t

/-- One iteration of the arc loop of index.  The accumulator carries
    the transitions and the running ok flag; none models the TypeError
    JS raises when an inhibitor arc lacks a place source or transition
    target, or a normal arc a matching endpoint.  A normal arc whose
    source is neither a place nor a transition sets ok to false and
    continues. -/
def indexArc (n : Nat) (acc : List Transition × Bool) (arc : Arc) :
    Option (List Transition × Bool) :=
  if arc.inhibit then
    match arc.source, arc.target with
    | NodeRef.placeRef plabel poffset, NodeRef.transRef tlabel =>
      let g : GuardRec := ⟨plabel, writeAt (List.replicate n 0) poffset (0 - arc.weight)⟩
      some (updateTrans acc.1 tlabel (fun t => { t with guards := setGuard t.guards g }), acc.2)
    | _, _ => none
  else
    match arc.source with
    | NodeRef.transRef tlabel =>
      match arc.target with
      | NodeRef.placeRef _ poffset =>
        some (updateTrans acc.1 tlabel
          (fun t => { t with delta := writeAt t.delta poffset arc.weight }), acc.2)
      | _ => none
    | NodeRef.placeRef _ poffset =>
      match arc.target with
      | NodeRef.transRef tlabel =>
        some (updateTrans acc.1 tlabel
          (fun t => { t with delta := writeAt t.delta poffset (0 - arc.weight) }), acc.2)
      | _ => none
    | NodeRef.nullRef => some (acc.1, false)

/-- index(): right-size every transition delta to a zero vector, then
    fold the arc loop over the arc list.  Returns the rewritten
    transitions and the ok flag, or none when the loop throws. -/
def indexDef (d : NetDef) : Option (List Transition × Bool) :=
  let ts0 := d.transitions.map fun t => { t with delta := List.replicate d.placeCount 0 }
  d.arcs.foldl (fun acc arc => acc.bind fun a => indexArc d.placeCount a arc) (some (ts0, true))

/-- A node handle as returned by the fn and cell constructors: a place
    field or a transition field (identified by label), possibly
    neither. -/
structure NodeHandle where
  place : Option PlaceRec
  transition : Option String
deriving DecidableEq, Repr

/-- The NodeRef the indexer later sees when this handle is stored as an
    arc endpoint. -/
def NodeHandle.toRef (h : NodeHandle) : NodeRef :=
  match h.transition with
  | some tl => NodeRef.transRef tl
  | none =>
    match h.place with
    | some p => NodeRef.placeRef p.label p.offset
    | none => NodeRef.nullRef

/-- The tx connector of a cell handle: push the arc (weight defaulted
    to 1 when falsy) and only then assert that the target has a
    transition field. -/
def cellTx (p : PlaceRec) (weight : Int) (target : NodeHandle) (arcs : List Arc) :
    List Arc × Except String Unit :=
  let arcs' := arcs ++
    [⟨NodeRef.placeRef p.label p.offset, target.toRef,
      if weight = 0 then 1 else weight, false⟩]
  (arcs', if target.transition.isSome then Except.ok ()
          else Except.error "target node must be a transition")

/-- The guard connector of a cell handle: push the inhibitor arc, then
    assert that the target has a transition field. -/
def cellGuard (p : PlaceRec) (weight : Int) (target : NodeHandle) (arcs : List Arc) :
    List Arc × Except String Unit :=
  let arcs' := arcs ++ [⟨NodeRef.placeRef p.label p.offset, target.toRef, weight, true⟩]
  (arcs', if target.transition.isSome then Except.ok ()
          else Except.error "target node must be a transition")

/-- The tx connector of an fn handle: assert the target exists and has
    a place field before pushing the arc, so a failed call appends
    nothing. -/
def fnTx (t : Transition) (weight : Int) (target : Option NodeHandle) (arcs : List Arc) :
    List Arc × Except String Unit :=
  match target with
  | none => (arcs, Except.error "target is null")
  | some h =>
    match h.place with
    | none => (arcs, Except.error "target node must be a place")
    | some _ => (arcs ++ [⟨NodeRef.transRef t.label, h.toRef, weight, false⟩], Except.ok ())

/-! Helper lemmas about the vector operations. -/

theorem getD_range_map (f : Nat → Int) (n i : Nat) (h : i < n) :
    ((List.range n).map f).getD i 0 = f i := by
  rw [List.getD_eq_getElem?_getD, List.getElem?_map, List.getElem?_range h]
  rfl

theorem range_map_getD (l : List Int) :
    (List.range l.length).map (fun i => l.getD i 0) = l := by
  apply List.ext_getElem
  · simp
  · intro i h1 h2
    simp [List.getD_eq_getElem?_getD, List.getElem?_eq_getElem h2]

theorem vaOut_length (state delta : List Int) (m : Int) :
    (vaOut state delta m).length = state.length := by
  simp [vaOut]

theorem vaOut_getD (state delta : List Int) (m : Int) (i : Nat) (h : i < state.length) :
    (vaOut state delta m).getD i 0 = state.getD i 0 + delta.getD i 0 * m :=
  getD_range_map _ _ _ h

theorem vaEntry_iff (c o : Int) :
    (if o < 0 then false
     else if 0 < c ∧ c - o < 0 then false
     else true) = true ↔ (0 ≤ o ∧ (0 < c → o ≤ c)) := by
  split_ifs with h1 h2
  · simp only [false_iff]
    intro hc
    omega
  · simp only [false_iff]
    intro hc
    rcases h2 with ⟨hc1, hc2⟩
    have := hc.2 hc1
    omega
  · simp only [true_iff]
    rcases not_and_or.mp h2 with hc | hc <;> constructor <;> first | omega | (intro; omega)

theorem vaOk_iff (cap state delta : List Int) (m : Int) :
    vaOk cap state delta m = true ↔
      ∀ i, i < state.length →
        0 ≤ state.getD i 0 + delta.getD i 0 * m ∧
        (0 < cap.getD i 0 → state.getD i 0 + delta.getD i 0 * m ≤ cap.getD i 0) := by
  rw [vaOk, List.all_eq_true]
  constructor
  · intro h i hi
    exact (vaEntry_iff (cap.getD i 0) (state.getD i 0 + delta.getD i 0 * m)).mp
      (h i (List.mem_range.mpr hi))
  · intro h i hi
    exact (vaEntry_iff (cap.getD i 0) (state.getD i 0 + delta.getD i 0 * m)).mpr
      (h i (List.mem_range.mp hi))

theorem commit_eq (state o : List Int) (h : o.length = state.length) :
    commit state o = o := by
  rw [commit]
  have hm : max state.length o.length = o.length := by omega
  rw [hm]
  have : ((List.range o.length).map fun i =>
      if i < o.length then o.getD i 0 else state.getD i 0) =
      (List.range o.length).map fun i => o.getD i 0 := by
    apply List.map_congr_left
    intro i hi
    simp [List.mem_range.mp hi]
  rw [this, range_map_getD]

theorem smOk_iff (o : List Int) :
    smOk o = true ↔ (∀ v ∈ o, v ≤ 1) ∧ ((o.filter fun v => 0 < v).length ≤ 1) := by
  rw [smOk]
  simp only [Bool.and_eq_true, Bool.not_eq_true', List.any_eq_false, decide_eq_true_eq]
  constructor
  · rintro ⟨h1, h2⟩
    refine ⟨fun v hv => ?_, by omega⟩
    have := h1 v hv
    simp at this
    omega
  · rintro ⟨h1, h2⟩
    refine ⟨fun v hv => ?_, by omega⟩
    have := h1 v hv
    simp
    omega

/-! Claim C4: vectorAdd computes out[i] = state[i] + delta[i] * multiplier,
    returns out regardless of ok, and ok holds iff every entry is
    nonnegative and within every positive capacity. -/

/-- Claim C4: for state and delta vectors of equal length and any
    multiplier, vectorAdd returns out with out[i] = state[i] +
    delta[i] * multiplier at every index (this out is the first
    component independently of the ok flag), and ok is true iff every
    out[i] is nonnegative and, whenever the capacity at i is nonzero,
    out[i] does not exceed it.  The embedding is pure, so neither input
    vector is mutated. -/
theorem vectorAdd_spec (cap state delta : List Int) (multiple : Int)
    (h : delta.length = state.length) :
    (vectorAdd cap state delta multiple).1.length = state.length ∧
    (∀ i, i < state.length →
      (vectorAdd cap state delta multiple).1.getD i 0 =
        state.getD i 0 + delta.getD i 0 * multiple) ∧
    ((vectorAdd cap state delta multiple).2 = true ↔
      ∀ i, i < state.length →
        0 ≤ (vectorAdd cap state delta multiple).1.getD i 0 ∧
        (0 < cap.getD i 0 →
          (vectorAdd cap state delta multiple).1.getD i 0 ≤ cap.getD i 0)) := by
  refine ⟨vaOut_length state delta multiple, fun i hi => vaOut_getD state delta multiple i hi, ?_⟩
  rw [show (vectorAdd cap state delta multiple).2 = vaOk cap state delta multiple from rfl]
  rw [vaOk_iff]
  constructor
  · intro h i hi
    rw [show (vectorAdd cap state delta multiple).1 = vaOut state delta multiple from rfl,
      vaOut_getD state delta multiple i hi]
    exact h i hi
  · intro h i hi
    have := h i hi
    rw [show (vectorAdd cap state delta multiple).1 = vaOut state delta multiple from rfl,
      vaOut_getD state delta multiple i hi] at this
    exact this

/-- Witness for vectorAdd_spec at a concrete instance. -/
theorem vectorAdd_spec_witness :
    (vectorAdd [2] [1] [1] 1).1.length = 1 ∧
    (∀ i, i < 1 →
      (vectorAdd [2] [1] [1] 1).1.getD i 0 =
        ([1] : List Int).getD i 0 + ([1] : List Int).getD i 0 * 1) ∧
    ((vectorAdd [2] [1] [1] 1).2 = true ↔
      ∀ i, i < 1 →
        0 ≤ (vectorAdd [2] [1] [1] 1).1.getD i 0 ∧
        (0 < ([2] : List Int).getD i 0 →
          (vectorAdd [2] [1] [1] 1).1.getD i 0 ≤ ([2] : List Int).getD i 0)) := by
  have h : ([1] : List Int).length = ([1] : List Int).length := rfl
  simpa using vectorAdd_spec [2] [1] [1] 1 h

/-! Unfolding lemmas for fire in each mode. -/

theorem testFire_guard_active (m : Model) (state : List Int) (action : String)
    (multiple : Int) (t : Transition)
    (ht : m.findTransition action = some t)
    (hg : guardFails m state t multiple = true) :
    testFire m state action multiple = some ⟨none, false, t.role⟩ := by
  rw [testFire, ht]
  simp [hg]

theorem testFire_guard_inactive (m : Model) (state : List Int) (action : String)
    (multiple : Int) (t : Transition)
    (ht : m.findTransition action = some t)
    (hg : guardFails m state t multiple = false) :
    testFire m state action multiple =
      some ⟨some (vaOut state t.delta multiple), vaOk m.capacity state t.delta multiple,
            t.role⟩ := by
  rw [testFire, ht]
  simp [hg]

theorem fire_reject_unchanged (m : Model) (state : List Int) (action : String)
    (multiple : Int) (fo : FireOutcome)
    (h : fire m state action multiple = some fo) (hok : fo.ok = false) :
    fo.newState = state := by
  rw [fire] at h
  rcases Option.map_eq_some'.mp h with ⟨res, _, hfo⟩
  subst hfo
  have hb : (fireStep m res).2 = false := hok
  show (if (fireStep m res).2 then _ else state) = state
  rw [hb]
  simp

theorem fire_sm (m : Model) (state : List Int) (action : String) (multiple : Int)
    (t : Transition)
    (htype : m.modelType = PFlowType.stateMachine)
    (ht : m.findTransition action = some t)
    (hg : guardFails m state t multiple = false)
    (hok : vaOk m.capacity state t.delta multiple = true) :
    fire m state action multiple =
      some ⟨some (vaOut state t.delta multiple), smOk (vaOut state t.delta multiple), t.role,
            if smOk (vaOut state t.delta multiple) = true
            then vaOut state t.delta multiple else state⟩ := by
  rw [fire, testFire_guard_inactive m state action multiple t ht hg, Option.map_some']
  have hstep : fireStep m ⟨some (vaOut state t.delta multiple),
      vaOk m.capacity state t.delta multiple, t.role⟩ =
      (some (vaOut state t.delta multiple), smOk (vaOut state t.delta multiple)) := by
    rw [fireStep, htype, hok]
    simp
  rw [hstep]
  by_cases hsm : smOk (vaOut state t.delta multiple) = true
  · simp [hsm, commit_eq state _ (vaOut_length state t.delta multiple)]
  · simp [hsm]

theorem fire_wf (m : Model) (state : List Int) (action : String) (multiple : Int)
    (t : Transition)
    (htype : m.modelType = PFlowType.workflow)
    (ht : m.findTransition action = some t)
    (hg : guardFails m state t multiple = false) :
    fire m state action multiple =
      some ⟨some (wfFilter m.placeCount (vaOut state t.delta multiple)),
            wfOk (vaOut state t.delta multiple), t.role,
            if wfOk (vaOut state t.delta multiple) = true
            then commit state (wfFilter m.placeCount (vaOut state t.delta multiple))
            else state⟩ := by
  rw [fire, testFire_guard_inactive m state action multiple t ht hg, Option.map_some']
  have hstep : fireStep m ⟨some (vaOut state t.delta multiple),
      vaOk m.capacity state t.delta multiple, t.role⟩ =
      (some (wfFilter m.placeCount (vaOut state t.delta multiple)),
       wfOk (vaOut state t.delta multiple)) := by
    rw [fireStep, htype]
  rw [hstep]

/-! Claim C3: stateMachine acceptance. -/

/-- Claim C3: in stateMachine mode, a firing whose raw vector
    arithmetic succeeded is finally accepted iff the resulting vector
    has at most one positive entry and no entry greater than 1, and
    every accepted firing commits that vector, so the marking it leaves
    satisfies both bounds. -/
theorem stateMachine_accept (m : Model) (state : List Int) (action : String)
    (multiple : Int) (t : Transition)
    (htype : m.modelType = PFlowType.stateMachine)
    (ht : m.findTransition action = some t)
    (hg : guardFails m state t multiple = false)
    (hok : vaOk m.capacity state t.delta multiple = true) :
    ∃ fo, fire m state action multiple = some fo ∧
      fo.out = some (vaOut state t.delta multiple) ∧
      (fo.ok = true ↔
        (∀ v ∈ vaOut state t.delta multiple, v ≤ 1) ∧
        ((vaOut state t.delta multiple).filter fun v => 0 < v).length ≤ 1) ∧
      (fo.ok = true →
        fo.newState = vaOut state t.delta multiple ∧
        (∀ v ∈ fo.newState, v ≤ 1) ∧
        (fo.newState.filter fun v => 0 < v).length ≤ 1) := by
  refine ⟨_, fire_sm m state action multiple t htype ht hg hok, rfl, ?_, ?_⟩
  · exact smOk_iff (vaOut state t.delta multiple)
  · intro hsm
    have h1 := (smOk_iff (vaOut state t.delta multiple)).mp hsm
    have h2 : (if smOk (vaOut state t.delta multiple) = true
        then vaOut state t.delta multiple else state) = vaOut state t.delta multiple := by
      rw [if_pos hsm]
    refine ⟨h2, ?_, ?_⟩
    · rw [show (FireOutcome.mk (some (vaOut state t.delta multiple))
        (smOk (vaOut state t.delta multiple)) t.role
        (if smOk (vaOut state t.delta multiple) = true
         then vaOut state t.delta multiple else state)).newState =
        (if smOk (vaOut state t.delta multiple) = true
         then vaOut state t.delta multiple else state) from rfl, h2]
      exact h1.1
    · rw [show (FireOutcome.mk (some (vaOut state t.delta multiple))
        (smOk (vaOut state t.delta multiple)) t.role
        (if smOk (vaOut state t.delta multiple) = true
         then vaOut state t.delta multiple else state)).newState =
        (if smOk (vaOut state t.delta multiple) = true
         then vaOut state t.delta multiple else state) from rfl, h2]
      exact h1.2

/-- A concrete stateMachine model used by the witness: one transition
    moving the single token from place 0 to place 1. -/
def smExample : Model :=
  ⟨PFlowType.stateMachine, 2, [0, 0], [⟨"t", "r", [-1, 1], []⟩]⟩

/-- Witness for stateMachine_accept at a concrete instance. -/
theorem stateMachine_accept_witness :
    ∃ fo, fire smExample [1, 0] "t" 1 = some fo ∧
      fo.out = some (vaOut [1, 0] (Transition.mk "t" "r" [-1, 1] []).delta 1) ∧
      (fo.ok = true ↔
        (∀ v ∈ vaOut [1, 0] (Transition.mk "t" "r" [-1, 1] []).delta 1, v ≤ 1) ∧
        ((vaOut [1, 0] (Transition.mk "t" "r" [-1, 1] []).delta 1).filter
          fun v => 0 < v).length ≤ 1) ∧
      (fo.ok = true →
        fo.newState = vaOut [1, 0] (Transition.mk "t" "r" [-1, 1] []).delta 1 ∧
        (∀ v ∈ fo.newState, v ≤ 1) ∧
        (fo.newState.filter fun v => 0 < v).length ≤ 1) :=
  stateMachine_accept smExample [1, 0] "t" 1 ⟨"t", "r", [-1, 1], []⟩
    rfl (by decide) (by decide) (by decide)

/-! Claim C5: rejection is atomic for fire and for dispatch. -/

/-- Claim C5: whenever fire decides ok = false the input marking is
    returned unchanged, and whenever the firing inside a dispatch is
    rejected the whole stream state (persisted markings, history,
    sequence counter) is exactly as before the dispatch. -/
theorem rejection_atomic :
    (∀ (m : Model) (state : List Int) (action : String) (multiple : Int) (fo : FireOutcome),
      fire m state action multiple = some fo → fo.ok = false → fo.newState = state) ∧
    (∀ (models : List StreamModel) (s : StreamState) (evt : Event) (sm : StreamModel)
        (fo : FireOutcome),
      (models.find? fun x => x.schema = evt.schema) = some sm →
      fire sm.model ((lookupState s.stateMap evt.schema).getD sm.initial)
        evt.action evt.multiple = some fo →
      fo.ok = false →
      (dispatch models s evt).1 = s) := by
  constructor
  · exact fun m state action multiple fo h hok => fire_reject_unchanged m state action multiple fo h hok
  · intro models s evt sm fo hfind hfire hok
    rw [dispatch, hfind]
    simp only [hfire, hok]
    by_cases hf : s.hasFail <;> simp [hf]

/-- A petriNet example: one transition moving a token from place 0 to
    place 1, used by several witnesses. -/
def pnExample : Model :=
  ⟨PFlowType.petriNet, 2, [0, 0], [⟨"t", "r", [-1, 1], []⟩]⟩

/-- A stream over pnExample with all handler slots registered. -/
def pnStreamModels : List StreamModel :=
  [⟨"s", pnExample, [1, 0]⟩]

/-- Witness for rejection_atomic: firing t from marking [0, 1]
    underflows and is rejected, leaving fire and dispatch unchanged. -/
theorem rejection_atomic_witness :
    (FireOutcome.mk (some [-1, 2]) false "r" [0, 1]).newState = [0, 1] ∧
    (dispatch pnStreamModels ⟨[("s", [0, 1])], 3, [], true, true, false⟩ ⟨"s", "t", 1⟩).1 =
      ⟨[("s", [0, 1])], 3, [], true, true, false⟩ :=
  ⟨rejection_atomic.1 pnExample [0, 1] "t" 1 ⟨some [-1, 2], false, "r", [0, 1]⟩
      (by decide) rfl,
   rejection_atomic.2 pnStreamModels ⟨[("s", [0, 1])], 3, [], true, true, false⟩
      ⟨"s", "t", 1⟩ ⟨"s", pnExample, [1, 0]⟩ ⟨some [-1, 2], false, "r", [0, 1]⟩
      (by decide) (by decide) rfl⟩

/-! Claim C1: an active guard blocks testFire in every mode, and blocks
    fire in petriNet and stateMachine mode; the workflow branch of fire
    instead accepts the guard-blocked firing with an all-zero vector. -/

/-- Claim C1 (amended): if some guard on the named transition is active
    (vectorAdd on the guard delta succeeds), testFire returns ok =
    false with result none in every mode, and in petriNet and
    stateMachine modes fire rejects and leaves the marking unchanged.
    The workflow mode, excluded here, is refuted by
    guard_reject_workflow_cx. -/
theorem guard_active_rejects (m : Model) (state : List Int) (action : String)
    (multiple : Int) (t : Transition)
    (ht : m.findTransition action = some t)
    (hmul : 0 < multiple)
    (hg : ∃ g ∈ t.guards, (vectorAdd m.capacity state g.delta multiple).2 = true) :
    testFire m state action multiple = some ⟨none, false, t.role⟩ ∧
    (m.modelType = PFlowType.petriNet ∨ m.modelType = PFlowType.stateMachine →
      fire m state action multiple = some ⟨none, false, t.role, state⟩) := by
  have hgf : guardFails m state t multiple = true := by
    rw [guardFails, List.any_eq_true]
    exact hg
  refine ⟨testFire_guard_active m state action multiple t ht hgf, ?_⟩
  intro htype
  rw [fire, testFire_guard_active m state action multiple t ht hgf, Option.map_some']
  have hstep : fireStep m ⟨none, false, t.role⟩ = (none, false) := by
    rcases htype with h | h <;> rw [fireStep, h] <;> simp
  rw [hstep]
  rfl

/-- The workflow counterexample model for claims C1 and C2: place p
    (offset 0) inhibits transition t with weight 1; t also consumes
    from p and produces into place q (offset 1). -/
def wfCxModel : Model :=
  ⟨PFlowType.workflow, 2, [0, 0], [⟨"t", "r", [-1, 1], [⟨"p", [-1, 0]⟩]⟩]⟩

/-- Counterexample to claim C1 as stated: in workflow mode, with the
    guard on p active at marking [1, 0] (vectorAdd on the guard delta
    succeeds), fire does not reject: it returns ok = true, invoking the
    resolve callback, and overwrites the marking with the zero vector. -/
theorem guard_reject_workflow_cx :
    (∃ g ∈ (Transition.mk "t" "r" [-1, 1] [⟨"p", [-1, 0]⟩]).guards,
      (vectorAdd wfCxModel.capacity [1, 0] g.delta 1).2 = true) ∧
    wfCxModel.findTransition "t" = some ⟨"t", "r", [-1, 1], [⟨"p", [-1, 0]⟩]⟩ ∧
    fire wfCxModel [1, 0] "t" 1 = some ⟨some [0, 0], true, "r", [0, 0]⟩ ∧
    ¬([0, 0] : List Int) = [1, 0] := by
  refine ⟨by decide, by decide, by decide, by decide⟩

/-- Witness for guard_active_rejects: a petriNet copy of the
    counterexample net, where the active guard does reject. -/
def pnGuardModel : Model :=
  ⟨PFlowType.petriNet, 2, [0, 0], [⟨"t", "r", [-1, 1], [⟨"p", [-1, 0]⟩]⟩]⟩

/-- Witness for guard_active_rejects at a concrete instance. -/
theorem guard_active_rejects_witness :
    testFire pnGuardModel [1, 0] "t" 1 = some ⟨none, false, "r"⟩ ∧
    (pnGuardModel.modelType = PFlowType.petriNet ∨
     pnGuardModel.modelType = PFlowType.stateMachine →
      fire pnGuardModel [1, 0] "t" 1 = some ⟨none, false, "r", [1, 0]⟩) :=
  guard_active_rejects pnGuardModel [1, 0] "t" 1 ⟨"t", "r", [-1, 1], [⟨"p", [-1, 0]⟩]⟩
    (by decide) (by decide) (by decide)

/-! Claim C2: workflow filtering of negative entries. -/

theorem wfOk_iff (o : List Int) :
    wfOk o = true ↔ (∀ v ∈ o, v ≤ 1) ∧ ((o.filter fun v => 0 < v).length ≤ 1) := by
  rw [wfOk]
  simp only [Bool.and_eq_true, Bool.not_eq_true', List.any_eq_false, decide_eq_true_eq]
  constructor
  · rintro ⟨h1, h2⟩
    refine ⟨fun v hv => ?_, by omega⟩
    have := h1 v hv
    simp at this
    omega
  · rintro ⟨h1, h2⟩
    refine ⟨fun v hv => ?_, by omega⟩
    have := h1 v hv
    simp
    omega

theorem getD_lt_mem (o : List Int) (i : Nat) (h : i < o.length) : o.getD i 0 ∈ o := by
  rw [List.getD_eq_getElem?_getD, List.getElem?_eq_getElem h]
  exact List.getElem_mem h

theorem mem_wfFilter (o : List Int) (n : Nat) (v : Int) :
    v ∈ wfFilter n o ↔
      ∃ i, i < n ∧ (if 0 < o.getD i 0 then o.getD i 0 else 0) = v := by
  rw [wfFilter]
  simp [List.mem_map, List.mem_range]

theorem wfFilter_le_one (o : List Int) (n : Nat) (h : o.length = n) :
    (∀ v ∈ wfFilter n o, v ≤ 1) ↔ (∀ v ∈ o, v ≤ 1) := by
  constructor
  · intro hf v hv
    obtain ⟨i, hi, rfl⟩ := List.mem_iff_getElem.mp hv
    by_cases hpos : 0 < o[i]
    · have hmem : o[i] ∈ wfFilter n o := by
        rw [mem_wfFilter]
        refine ⟨i, by omega, ?_⟩
        rw [List.getD_eq_getElem?_getD, List.getElem?_eq_getElem hi]
        simp [hpos]
      exact hf _ hmem
    · omega
  · intro ho v hv
    rw [mem_wfFilter] at hv
    obtain ⟨i, hi, rfl⟩ := hv
    by_cases hpos : 0 < o.getD i 0
    · rw [if_pos hpos]
      exact ho _ (getD_lt_mem o i (by omega))
    · rw [if_neg hpos]
      omega

theorem wfFilter_count (o : List Int) (n : Nat) (h : o.length = n) :
    ((wfFilter n o).filter fun v => 0 < v).length =
      ((o.filter fun v => 0 < v)).length := by
  rw [← List.countP_eq_length_filter, ← List.countP_eq_length_filter]
  rw [wfFilter, List.countP_map]
  conv_rhs => rw [← range_map_getD o, List.countP_map, h]
  apply List.countP_congr
  intro i _
  by_cases hpos : 0 < o.getD i 0 <;>
    simp only [List.getD_eq_getElem?_getD] at hpos <;>
    simp [hpos]

theorem wfOk_iff_filtered (o : List Int) (n : Nat) (h : o.length = n) :
    wfOk o = true ↔
      (∀ v ∈ wfFilter n o, v ≤ 1) ∧
      (((wfFilter n o).filter fun v => 0 < v).length ≤ 1) := by
  rw [wfOk_iff, ← wfFilter_le_one o n h, ← wfFilter_count o n h]

theorem wfFilter_length (n : Nat) (o : List Int) : (wfFilter n o).length = n := by
  simp [wfFilter]

/-- Claim C2 (amended): in workflow mode, for every firing on which no
    guard is active, the committed result vector is the raw add result
    with every negative entry replaced by zero, the firing is accepted
    iff after this filtering at most one place is positive and no place
    exceeds 1, and on acceptance the filtered vector overwrites the
    marking.  For a guard-active firing, excluded here, the committed
    vector is instead all zero: see workflow_filter_cx. -/
theorem workflow_filter (m : Model) (state : List Int) (action : String)
    (multiple : Int) (t : Transition)
    (htype : m.modelType = PFlowType.workflow)
    (ht : m.findTransition action = some t)
    (hlen : state.length = m.placeCount)
    (hg : guardFails m state t multiple = false) :
    ∃ fo, fire m state action multiple = some fo ∧
      fo.out = some (wfFilter m.placeCount (vaOut state t.delta multiple)) ∧
      (fo.ok = true ↔
        (∀ v ∈ wfFilter m.placeCount (vaOut state t.delta multiple), v ≤ 1) ∧
        ((wfFilter m.placeCount (vaOut state t.delta multiple)).filter
          fun v => 0 < v).length ≤ 1) ∧
      (fo.ok = true →
        fo.newState = wfFilter m.placeCount (vaOut state t.delta multiple)) := by
  refine ⟨_, fire_wf m state action multiple t htype ht hg, rfl, ?_, ?_⟩
  · exact wfOk_iff_filtered (vaOut state t.delta multiple) m.placeCount
      (by rw [vaOut_length, hlen])
  · intro hok
    have h2 : (if wfOk (vaOut state t.delta multiple) = true
        then commit state (wfFilter m.placeCount (vaOut state t.delta multiple))
        else state) = commit state (wfFilter m.placeCount (vaOut state t.delta multiple)) := by
      rw [if_pos hok]
    calc (FireOutcome.mk
        (some (wfFilter m.placeCount (vaOut state t.delta multiple)))
        (wfOk (vaOut state t.delta multiple)) t.role
        (if wfOk (vaOut state t.delta multiple) = true
         then commit state (wfFilter m.placeCount (vaOut state t.delta multiple))
         else state)).newState
        = commit state (wfFilter m.placeCount (vaOut state t.delta multiple)) := h2
      _ = wfFilter m.placeCount (vaOut state t.delta multiple) :=
          commit_eq state _ (by rw [wfFilter_length, hlen])

/-- Witness for workflow_filter at a concrete instance: a workflow net
    moving a token from place 0 to place 1 with no guards. -/
def wfExample : Model :=
  ⟨PFlowType.workflow, 2, [0, 0], [⟨"t", "r", [-1, 1], []⟩]⟩

/-- Witness for workflow_filter at a concrete instance. -/
theorem workflow_filter_witness :
    ∃ fo, fire wfExample [1, 0] "t" 1 = some fo ∧
      fo.out = some (wfFilter wfExample.placeCount
        (vaOut [1, 0] (Transition.mk "t" "r" [-1, 1] []).delta 1)) ∧
      (fo.ok = true ↔
        (∀ v ∈ wfFilter wfExample.placeCount
          (vaOut [1, 0] (Transition.mk "t" "r" [-1, 1] []).delta 1), v ≤ 1) ∧
        ((wfFilter wfExample.placeCount
          (vaOut [1, 0] (Transition.mk "t" "r" [-1, 1] []).delta 1)).filter
          fun v => 0 < v).length ≤ 1) ∧
      (fo.ok = true →
        fo.newState = wfFilter wfExample.placeCount
          (vaOut [1, 0] (Transition.mk "t" "r" [-1, 1] []).delta 1)) :=
  workflow_filter wfExample [1, 0] "t" 1 ⟨"t", "r", [-1, 1], []⟩
    rfl (by decide) (by decide) (by decide)

/-- Counterexample to claim C2 as stated for every firing: at marking
    [1, 0] of wfCxModel the guard on p is active, the raw add result
    filtered of negatives is [0, 1], yet the committed vector of the
    accepted firing is the all-zero vector, not the filtered raw
    result. -/
theorem workflow_filter_cx :
    wfFilter wfCxModel.placeCount
      (vaOut [1, 0] (Transition.mk "t" "r" [-1, 1] [⟨"p", [-1, 0]⟩]).delta 1) = [0, 1] ∧
    fire wfCxModel [1, 0] "t" 1 = some ⟨some [0, 0], true, "r", [0, 0]⟩ ∧
    ¬(some [0, 0] : Option (List Int)) = some [0, 1] := by
  refine ⟨by decide, by decide, by decide⟩

/-! Claim C8: the cell connectors append the arc before asserting; the
    fn connector asserts before appending. -/

/-- Claim C8: calling the tx or guard connector of a place handle with
    a target that has no transition field throws the assertion, but the
    arc (with the invalid target) has already been appended, so the arc
    list is one entry longer; the tx connector of a transition handle
    asserts first, so a failed call appends nothing. -/
theorem connector_order (p : PlaceRec) (t : Transition) (weight : Int)
    (target : NodeHandle) (arcs : List Arc)
    (htgt : target.transition = none) :
    ((cellTx p weight target arcs).1 =
      arcs ++ [⟨NodeRef.placeRef p.label p.offset, target.toRef,
                if weight = 0 then 1 else weight, false⟩] ∧
     ∃ e, (cellTx p weight target arcs).2 = Except.error e) ∧
    ((cellGuard p weight target arcs).1 =
      arcs ++ [⟨NodeRef.placeRef p.label p.offset, target.toRef, weight, true⟩] ∧
     ∃ e, (cellGuard p weight target arcs).2 = Except.error e) ∧
    (∀ target2 : Option NodeHandle,
      (target2 = none ∨ ∃ h2, target2 = some h2 ∧ h2.place = none) →
      (fnTx t weight target2 arcs).1 = arcs ∧
      ∃ e, (fnTx t weight target2 arcs).2 = Except.error e) := by
  refine ⟨⟨rfl, ?_⟩, ⟨rfl, ?_⟩, ?_⟩
  · rw [cellTx]
    simp [htgt]
  · rw [cellGuard]
    simp [htgt]
  · rintro target2 (rfl | ⟨h2, rfl, hp⟩)
    · exact ⟨rfl, _, rfl⟩
    · rw [fnTx]
      simp [hp]

/-- Witness for connector_order at a concrete instance: the target is a
    place handle, which has no transition field. -/
theorem connector_order_witness :
    ((cellTx ⟨"p", 0, 0, 0⟩ 0 ⟨some ⟨"q", 0, 0, 1⟩, none⟩ []).1 =
      [] ++ [⟨NodeRef.placeRef "p" 0, (NodeHandle.mk (some ⟨"q", 0, 0, 1⟩) none).toRef,
              if (0 : Int) = 0 then 1 else 0, false⟩] ∧
     ∃ e, (cellTx ⟨"p", 0, 0, 0⟩ 0 ⟨some ⟨"q", 0, 0, 1⟩, none⟩ []).2 = Except.error e) ∧
    ((cellGuard ⟨"p", 0, 0, 0⟩ 0 ⟨some ⟨"q", 0, 0, 1⟩, none⟩ []).1 =
      [] ++ [⟨NodeRef.placeRef "p" 0, (NodeHandle.mk (some ⟨"q", 0, 0, 1⟩) none).toRef,
              0, true⟩] ∧
     ∃ e, (cellGuard ⟨"p", 0, 0, 0⟩ 0 ⟨some ⟨"q", 0, 0, 1⟩, none⟩ []).2 = Except.error e) ∧
    (∀ target2 : Option NodeHandle,
      (target2 = none ∨ ∃ h2, target2 = some h2 ∧ h2.place = none) →
      (fnTx ⟨"t", "r", [], []⟩ 0 target2 []).1 = [] ∧
      ∃ e, (fnTx ⟨"t", "r", [], []⟩ 0 target2 []).2 = Except.error e) :=
  connector_order ⟨"p", 0, 0, 0⟩ ⟨"t", "r", [], []⟩ 0 ⟨some ⟨"q", 0, 0, 1⟩, none⟩ [] rfl

/-! Claim C9: dispatch unconditionally invokes the reload handler slot
    after an accepted firing and the fail handler slot after a rejected
    one, throwing when the slot is empty; on the success path the
    commit happens before the throw. -/

theorem lookupState_setState (sm : List (String × List Int)) (schema : String)
    (v : List Int) :
    lookupState (setState sm schema v) schema = some v := by
  induction sm with
  | nil => simp [setState, lookupState]
  | cons kv rest ih =>
    by_cases h : kv.1 = schema
    · have hany : (kv :: rest).any (fun x => x.1 = schema) = true := by
        simp [List.any_cons, h]
      rw [setState, if_pos hany]
      simp [lookupState, List.find?, h]
    · by_cases h2 : rest.any (fun x => x.1 = schema) = true
      · have hany : (kv :: rest).any (fun x => x.1 = schema) = true := by
          simp [List.any_cons, h2]
        rw [setState, if_pos hany]
        rw [setState, if_pos h2] at ih
        simp only [List.map_cons, if_neg h]
        rw [lookupState] at ih ⊢
        simp only [List.find?]
        have : (decide (kv.1 = schema)) = false := by simp [h]
        rw [this]
        exact ih
      · have hany : ¬(kv :: rest).any (fun x => x.1 = schema) = true := by
          simp only [List.any_cons, Bool.or_eq_true, decide_eq_true_eq]
          push_neg
          exact ⟨h, by simpa using h2⟩
        rw [setState, if_neg hany]
        rw [setState, if_neg (by simpa using h2)] at ih
        rw [lookupState] at ih ⊢
        simp only [List.cons_append, List.find?]
        have : (decide (kv.1 = schema)) = false := by simp [h]
        rw [this]
        exact ih

/-- Claim C9: after an accepted firing dispatch persists the new
    marking and appends the history entry, then invokes the reload
    handler slot: when that slot is empty the call throws, but the
    commit survives.  After a rejected firing dispatch invokes the fail
    handler slot, throwing when it is empty, with the stream state
    untouched either way. -/
theorem dispatch_handlers (models : List StreamModel) (s : StreamState) (evt : Event)
    (sm : StreamModel) (fo : FireOutcome)
    (hfind : (models.find? fun x => x.schema = evt.schema) = some sm)
    (hfire : fire sm.model ((lookupState s.stateMap evt.schema).getD sm.initial)
        evt.action evt.multiple = some fo) :
    (fo.ok = true → s.hasReload = false →
      dispatch models s evt =
        ({ s with
            stateMap := setState s.stateMap evt.schema (fo.out.getD [])
            history := s.history ++ [⟨s.seq, evt, fo.out.getD []⟩]
            seq := s.seq + 1 },
         Except.error DispatchError.handlerMissing)) ∧
    (fo.ok = true → s.hasReload = true →
      (dispatch models s evt).2 = Except.ok fo ∧
      (dispatch models s evt).1.history = s.history ++ [⟨s.seq, evt, fo.out.getD []⟩] ∧
      lookupState (dispatch models s evt).1.stateMap evt.schema =
        some (fo.out.getD [])) ∧
    (fo.ok = false → s.hasFail = false →
      dispatch models s evt = (s, Except.error DispatchError.handlerMissing)) ∧
    (fo.ok = false → s.hasFail = true →
      dispatch models s evt = (s, Except.ok fo)) := by
  refine ⟨?_, ?_, ?_, ?_⟩
  · intro hok hre
    rw [dispatch, hfind]
    simp only [hfire, hok, hre]
    simp
  · intro hok hre
    rw [dispatch, hfind]
    simp [hfire, hok, hre, lookupState_setState]
  · intro hok hfl
    rw [dispatch, hfind]
    simp only [hfire, hok, hfl]
    simp
  · intro hok hfl
    rw [dispatch, hfind]
    simp only [hfire, hok, hfl]
    simp

/-- Witness for dispatch_handlers: a stream over pnExample whose reload
    slot is empty; dispatching the enabled transition commits the new
    marking and then reports the missing handler. -/
theorem dispatch_handlers_witness :
    ((FireOutcome.mk (some [0, 1]) true "r" [0, 1]).ok = true →
      (StreamState.mk [] 0 [] false false false).hasReload = false →
      dispatch pnStreamModels ⟨[], 0, [], false, false, false⟩ ⟨"s", "t", 1⟩ =
        (⟨[("s", [0, 1])], 1,
          [⟨0, ⟨"s", "t", 1⟩, [0, 1]⟩], false, false, false⟩,
         Except.error DispatchError.handlerMissing)) ∧
    ((FireOutcome.mk (some [0, 1]) true "r" [0, 1]).ok = true →
      (StreamState.mk [] 0 [] false false false).hasReload = true →
      (dispatch pnStreamModels ⟨[], 0, [], false, false, false⟩ ⟨"s", "t", 1⟩).2 =
        Except.ok ⟨some [0, 1], true, "r", [0, 1]⟩ ∧
      (dispatch pnStreamModels ⟨[], 0, [], false, false, false⟩ ⟨"s", "t", 1⟩).1.history =
        [] ++ [⟨0, ⟨"s", "t", 1⟩, [0, 1]⟩] ∧
      lookupState (dispatch pnStreamModels ⟨[], 0, [], false, false, false⟩
        ⟨"s", "t", 1⟩).1.stateMap "s" = some [0, 1]) ∧
    ((FireOutcome.mk (some [0, 1]) true "r" [0, 1]).ok = false →
      (StreamState.mk [] 0 [] false false false).hasFail = false →
      dispatch pnStreamModels ⟨[], 0, [], false, false, false⟩ ⟨"s", "t", 1⟩ =
        (⟨[], 0, [], false, false, false⟩, Except.error DispatchError.handlerMissing)) ∧
    ((FireOutcome.mk (some [0, 1]) true "r" [0, 1]).ok = false →
      (StreamState.mk [] 0 [] false false false).hasFail = true →
      dispatch pnStreamModels ⟨[], 0, [], false, false, false⟩ ⟨"s", "t", 1⟩ =
        (⟨[], 0, [], false, false, false⟩, Except.ok ⟨some [0, 1], true, "r", [0, 1]⟩)) :=
  dispatch_handlers pnStreamModels ⟨[], 0, [], false, false, false⟩ ⟨"s", "t", 1⟩
    ⟨"s", pnExample, [1, 0]⟩ ⟨some [0, 1], true, "r", [0, 1]⟩ (by decide) (by decide)

/-! Claim C10: the object declaration path leaves arcs empty, so a
    subsequent index zeroes every delta; accepted firings then leave
    the marking unchanged, except for guard-active workflow firings. -/

theorem getD_replicate_zero (k i : Nat) : (List.replicate k (0 : Int)).getD i 0 = 0 := by
  rw [List.getD_eq_getElem?_getD]
  by_cases h : i < k
  · simp [List.getElem?_replicate, h]
  · rw [List.getElem?_eq_none (by simpa using h)]
    rfl

theorem vaOut_zero (state : List Int) (k : Nat) (multiple : Int) :
    vaOut state (List.replicate k 0) multiple = state := by
  rw [vaOut]
  have h : ∀ i ∈ List.range state.length,
      state.getD i 0 + (List.replicate k (0 : Int)).getD i 0 * multiple = state.getD i 0 := by
    intro i _
    rw [getD_replicate_zero]
    ring
  rw [List.map_congr_left h, range_map_getD]

theorem wfFilter_nonneg_id (state : List Int) (n : Nat)
    (hlen : state.length = n) (hnn : ∀ v ∈ state, 0 ≤ v) :
    wfFilter n state = state := by
  rw [wfFilter]
  have h : ∀ i ∈ List.range n,
      (if 0 < state.getD i 0 then state.getD i 0 else 0) = state.getD i 0 := by
    intro i hi
    have hv : 0 ≤ state.getD i 0 :=
      hnn _ (getD_lt_mem state i (by rw [hlen]; exact List.mem_range.mp hi))
    by_cases hpos : 0 < state.getD i 0
    · rw [if_pos hpos]
    · rw [if_neg hpos]
      omega
  rw [List.map_congr_left h, ← hlen, range_map_getD]

theorem fire_pn (m : Model) (state : List Int) (action : String) (multiple : Int)
    (t : Transition)
    (htype : m.modelType = PFlowType.petriNet)
    (ht : m.findTransition action = some t)
    (hg : guardFails m state t multiple = false) :
    fire m state action multiple =
      some ⟨some (vaOut state t.delta multiple), vaOk m.capacity state t.delta multiple,
            t.role,
            if vaOk m.capacity state t.delta multiple = true
            then commit state (vaOut state t.delta multiple) else state⟩ := by
  rw [fire, testFire_guard_inactive m state action multiple t ht hg, Option.map_some']
  have hstep : fireStep m ⟨some (vaOut state t.delta multiple),
      vaOk m.capacity state t.delta multiple, t.role⟩ =
      (some (vaOut state t.delta multiple), vaOk m.capacity state t.delta multiple) := by
    rw [fireStep, htype]
  rw [hstep]

theorem fire_sm_fail (m : Model) (state : List Int) (action : String) (multiple : Int)
    (t : Transition)
    (htype : m.modelType = PFlowType.stateMachine)
    (ht : m.findTransition action = some t)
    (hg : guardFails m state t multiple = false)
    (hok : vaOk m.capacity state t.delta multiple = false) :
    fire m state action multiple =
      some ⟨some (vaOut state t.delta multiple), false, t.role, state⟩ := by
  rw [fire, testFire_guard_inactive m state action multiple t ht hg, Option.map_some']
  have hstep : fireStep m ⟨some (vaOut state t.delta multiple),
      vaOk m.capacity state t.delta multiple, t.role⟩ =
      (some (vaOut state t.delta multiple), false) := by
    rw [fireStep, htype, hok]
    simp
  rw [hstep]
  rfl

/-- Claim C10 (amended): loading a model from a pre-built object
    declaration leaves the arc list empty, so a later index() returns
    true and zeroes every transition delta; thereafter every accepted
    firing from a nonnegative marking on which no guard is active
    leaves the marking unchanged.  A guard-active workflow firing is
    instead accepted and zeroes the marking: see
    object_declaration_cx. -/
theorem object_declaration_path (n : Nat) (ts : List Transition) (m : Model)
    (state : List Int) (action : String) (multiple : Int) (t : Transition)
    (hz : ∀ t2 ∈ m.transitions, t2.delta = List.replicate m.placeCount 0)
    (hlen : state.length = m.placeCount)
    (hnn : ∀ v ∈ state, 0 ≤ v)
    (ht : m.findTransition action = some t)
    (hg : guardFails m state t multiple = false) :
    indexDef ⟨n, ts, []⟩ =
      some (ts.map fun t2 => { t2 with delta := List.replicate n 0 }, true) ∧
    (∀ fo, fire m state action multiple = some fo → fo.ok = true →
      fo.newState = state) := by
  refine ⟨rfl, ?_⟩
  intro fo hfire hfok
  have htmem : t ∈ m.transitions := List.mem_of_find?_eq_some ht
  have hdelta : t.delta = List.replicate m.placeCount 0 := hz t htmem
  have hout : vaOut state t.delta multiple = state := by
    rw [hdelta]
    exact vaOut_zero state m.placeCount multiple
  have hcommit : commit state state = state := commit_eq state state rfl
  cases htype : m.modelType with
  | petriNet =>
    rw [fire_pn m state action multiple t htype ht hg] at hfire
    have hr := Option.some.inj hfire
    rw [← hr]
    show (if vaOk m.capacity state t.delta multiple = true
      then commit state (vaOut state t.delta multiple) else state) = state
    rw [hout, hcommit, ite_self]
  | stateMachine =>
    by_cases hok : vaOk m.capacity state t.delta multiple = true
    · rw [fire_sm m state action multiple t htype ht hg hok] at hfire
      have hr := Option.some.inj hfire
      rw [← hr]
      show (if smOk (vaOut state t.delta multiple) = true
        then vaOut state t.delta multiple else state) = state
      rw [hout, ite_self]
    · rw [fire_sm_fail m state action multiple t htype ht hg
        (Bool.eq_false_iff.mpr hok)] at hfire
      have hr := Option.some.inj hfire
      rw [← hr]
  | workflow =>
    rw [fire_wf m state action multiple t htype ht hg] at hfire
    have hr := Option.some.inj hfire
    rw [← hr]
    show (if wfOk (vaOut state t.delta multiple) = true
      then commit state (wfFilter m.placeCount (vaOut state t.delta multiple))
      else state) = state
    rw [hout, wfFilter_nonneg_id state m.placeCount hlen hnn, hcommit, ite_self]

/-- Witness for object_declaration_path at a concrete instance: a
    petriNet model whose only transition carries the zero delta the
    object path plus index produces. -/
def objExample : Model :=
  ⟨PFlowType.petriNet, 1, [0], [⟨"t", "r", [0], []⟩]⟩

/-- Witness for object_declaration_path at a concrete instance. -/
theorem object_declaration_path_witness :
    indexDef ⟨1, [⟨"t", "r", [5], []⟩], []⟩ =
      some (([(⟨"t", "r", [5], []⟩ : Transition)]).map fun t2 =>
        { t2 with delta := List.replicate 1 0 }, true) ∧
    (∀ fo, fire objExample [1] "t" 1 = some fo → fo.ok = true →
      fo.newState = [1]) :=
  object_declaration_path 1 [⟨"t", "r", [5], []⟩] objExample [1] "t" 1
    ⟨"t", "r", [0], []⟩ (by decide) (by decide) (by decide) (by decide) (by decide)

/-- The net definition an object declaration with a guard-carrying
    transition produces: arcs stay empty. -/
def wfObjDef : NetDef := ⟨1, [⟨"t", "r", [5], [⟨"p", [-1]⟩]⟩], []⟩

/-- The workflow model obtained from wfObjDef after index: delta
    zeroed, guards untouched. -/
def wfObjModel : Model :=
  ⟨PFlowType.workflow, 1, [0], [⟨"t", "r", [0], [⟨"p", [-1]⟩]⟩]⟩

/-- Counterexample to claim C10 as stated: indexing the object-loaded
    definition does return true with all deltas zero, but the workflow
    firing of t from marking [1] (nonnegative) is accepted (ok = true)
    because its guard on p is active, and it changes the marking to
    [0]. -/
theorem object_declaration_cx :
    indexDef wfObjDef = some ([⟨"t", "r", [0], [⟨"p", [-1]⟩]⟩], true) ∧
    (∀ v ∈ ([1] : List Int), 0 ≤ v) ∧
    fire wfObjModel [1] "t" 1 = some ⟨some [0], true, "r", [0]⟩ ∧
    ¬([0] : List Int) = [1] := by
  refine ⟨by decide, by decide, by decide, by decide⟩

/-! Claim C6: restart resets the stream and N accepted dispatches build
    a history with sequence numbers 0..N-1 recording each event and its
    resulting marking. -/

theorem lookupState_removeState_self (sm : List (String × List Int)) (k : String) :
    lookupState (removeState sm k) k = none := by
  rw [lookupState, Option.map_eq_none', List.find?_eq_none]
  intro kv hkv
  rw [removeState] at hkv
  have h := List.of_mem_filter hkv
  simpa using h

theorem lookupState_none_removeState (sm : List (String × List Int)) (k k2 : String)
    (h : lookupState sm k = none) :
    lookupState (removeState sm k2) k = none := by
  rw [lookupState, Option.map_eq_none', List.find?_eq_none] at h ⊢
  intro kv hkv
  exact h kv (List.mem_of_mem_filter hkv)

theorem foldl_removeState_none (ms : List StreamModel) (acc : List (String × List Int))
    (k : String) (h : lookupState acc k = none) :
    lookupState (ms.foldl (fun a sm => removeState a sm.schema) acc) k = none := by
  induction ms generalizing acc with
  | nil => exact h
  | cons m rest ih =>
    exact ih (removeState acc m.schema) (lookupState_none_removeState acc k m.schema h)

theorem foldl_removeState_mem (ms : List StreamModel) (acc : List (String × List Int))
    (k : String) (h : ∃ m ∈ ms, m.schema = k) :
    lookupState (ms.foldl (fun a sm => removeState a sm.schema) acc) k = none := by
  induction ms generalizing acc with
  | nil =>
    rcases h with ⟨m, hm, _⟩
    exact absurd hm (by simp)
  | cons m rest ih =>
    rcases h with ⟨m2, hm2, hk⟩
    rcases List.mem_cons.mp hm2 with rfl | hm2'
    · subst hk
      exact foldl_removeState_none rest _ _ (lookupState_removeState_self acc m2.schema)
    · exact ih (removeState acc m.schema) ⟨m2, hm2', hk⟩

theorem dispatch_accepted (models : List StreamModel) (s : StreamState) (evt : Event)
    (sm : StreamModel) (fo : FireOutcome)
    (hfind : (models.find? fun x => x.schema = evt.schema) = some sm)
    (hfire : fire sm.model ((lookupState s.stateMap evt.schema).getD sm.initial)
        evt.action evt.multiple = some fo)
    (hok : fo.ok = true) :
    (dispatch models s evt).1 =
      { s with
        stateMap := setState s.stateMap evt.schema (fo.out.getD [])
        history := s.history ++ [⟨s.seq, evt, fo.out.getD []⟩]
        seq := s.seq + 1 } := by
  rw [dispatch, hfind]
  simp only [hfire, hok]
  by_cases hre : s.hasReload <;> simp [hre]

theorem acceptedStep_elim (models : List StreamModel) (s : StreamState) (evt : Event)
    (h : acceptedStep models s evt = true) :
    ∃ sm, (models.find? fun x => x.schema = evt.schema) = some sm ∧
      ∃ fo, fire sm.model ((lookupState s.stateMap evt.schema).getD sm.initial)
          evt.action evt.multiple = some fo ∧ fo.ok = true := by
  rw [acceptedStep] at h
  split at h
  next => exact absurd h (by simp)
  next sm hf =>
    split at h
    next => exact absurd h (by simp)
    next fo hfire => exact ⟨sm, hf, fo, hfire, h⟩

theorem dispatchAll_hist (models : List StreamModel) (evts : List Event)
    (s : StreamState) (h : allAccepted models s evts = true) :
    (dispatchAll models s evts).history.map (fun e => e.seq) =
      s.history.map (fun e => e.seq) ++ List.range' s.seq evts.length ∧
    (dispatchAll models s evts).history.map (fun e => e.event) =
      s.history.map (fun e => e.event) ++ evts ∧
    (dispatchAll models s evts).seq = s.seq + evts.length := by
  induction evts generalizing s with
  | nil =>
    refine ⟨by simp [dispatchAll, List.range'], by simp [dispatchAll], by simp [dispatchAll]⟩
  | cons evt rest ih =>
    rw [allAccepted, Bool.and_eq_true] at h
    rcases h with ⟨hstep, hrest⟩
    rcases acceptedStep_elim models s evt hstep with ⟨sm, hfind, fo, hfire, hok⟩
    have hs1 := dispatch_accepted models s evt sm fo hfind hfire hok
    have hall : dispatchAll models s (evt :: rest) =
        dispatchAll models (dispatch models s evt).1 rest := by
      rw [dispatchAll, List.foldl_cons]
      rfl
    rcases ih (dispatch models s evt).1 hrest with ⟨ih1, ih2, ih3⟩
    rw [hall]
    refine ⟨?_, ?_, ?_⟩
    · rw [ih1, hs1]
      show (s.history ++ [(⟨s.seq, evt, fo.out.getD []⟩ : HistEntry)]).map (fun e => e.seq) ++
          List.range' (s.seq + 1) rest.length =
        s.history.map (fun e => e.seq) ++ List.range' s.seq (rest.length + 1)
      rw [List.map_append, List.range'_succ, List.append_assoc]
      rfl
    · rw [ih2, hs1]
      show (s.history ++ [(⟨s.seq, evt, fo.out.getD []⟩ : HistEntry)]).map (fun e => e.event) ++ rest =
        s.history.map (fun e => e.event) ++ (evt :: rest)
      rw [List.map_append, List.append_assoc]
      rfl
    · rw [ih3, hs1]
      show s.seq + 1 + rest.length = s.seq + (rest.length + 1)
      omega

/-- Claim C6: restart resets the sequence counter to 0, empties the
    history and deletes every registered persisted marking (so the next
    dispatch reads the initial vector); after restart, N dispatches
    that are all accepted yield a history of exactly N entries with
    sequence numbers 0..N-1 in order recording the events, and every
    accepted dispatch appends exactly one entry carrying the event and
    the resulting marking, which is also what it persists. -/
theorem restart_history (models : List StreamModel) (s0 : StreamState)
    (evts : List Event)
    (h : allAccepted models (restart models s0) evts = true) :
    (restart models s0).seq = 0 ∧
    (restart models s0).history = [] ∧
    (∀ sm ∈ models, lookupState (restart models s0).stateMap sm.schema = none) ∧
    (dispatchAll models (restart models s0) evts).history.length = evts.length ∧
    (dispatchAll models (restart models s0) evts).history.map (fun e => e.seq) =
      List.range evts.length ∧
    (dispatchAll models (restart models s0) evts).history.map (fun e => e.event) = evts ∧
    (∀ (s : StreamState) (evt : Event) (sm : StreamModel) (fo : FireOutcome),
      (models.find? fun x => x.schema = evt.schema) = some sm →
      fire sm.model ((lookupState s.stateMap evt.schema).getD sm.initial) evt.action
        evt.multiple = some fo →
      fo.ok = true →
      (dispatch models s evt).1.history = s.history ++ [⟨s.seq, evt, fo.out.getD []⟩] ∧
      (dispatch models s evt).1.seq = s.seq + 1 ∧
      lookupState (dispatch models s evt).1.stateMap evt.schema =
        some (fo.out.getD [])) := by
  rcases dispatchAll_hist models evts (restart models s0) h with ⟨h1, h2, _⟩
  have hseq : (restart models s0).seq = 0 := rfl
  have hhist : (restart models s0).history = [] := rfl
  refine ⟨hseq, hhist, ?_, ?_, ?_, ?_, ?_⟩
  · intro sm hsm
    exact foldl_removeState_mem models s0.stateMap sm.schema ⟨sm, hsm, rfl⟩
  · have := congrArg List.length h2
    simpa [hhist] using this
  · rw [h1, hhist, hseq]
    simp [List.range_eq_range']
  · rw [h2, hhist]
    simp
  · intro s evt sm fo hfind hfire hok
    have hs1 := dispatch_accepted models s evt sm fo hfind hfire hok
    rw [hs1]
    exact ⟨rfl, rfl, lookupState_setState s.stateMap evt.schema (fo.out.getD [])⟩

/-- Witness for restart_history: two accepted dispatches on a petriNet
    net that moves a token back and forth between two places. -/
def pingPongModel : Model :=
  ⟨PFlowType.petriNet, 2, [0, 0],
   [⟨"go", "r", [-1, 1], []⟩, ⟨"back", "r", [1, -1], []⟩]⟩

/-- Stream models for the restart_history witness. -/
def pingPongModels : List StreamModel :=
  [⟨"s", pingPongModel, [1, 0]⟩]

/-- Witness for restart_history at a concrete instance. -/
theorem restart_history_witness :
    (restart pingPongModels ⟨[("s", [0, 1])], 7,
      [⟨9, ⟨"s", "go", 1⟩, [0, 1]⟩], true, true, false⟩).seq = 0 ∧
    (restart pingPongModels ⟨[("s", [0, 1])], 7,
      [⟨9, ⟨"s", "go", 1⟩, [0, 1]⟩], true, true, false⟩).history = [] ∧
    (∀ sm ∈ pingPongModels,
      lookupState (restart pingPongModels ⟨[("s", [0, 1])], 7,
        [⟨9, ⟨"s", "go", 1⟩, [0, 1]⟩], true, true, false⟩).stateMap sm.schema = none) ∧
    (dispatchAll pingPongModels (restart pingPongModels ⟨[("s", [0, 1])], 7,
      [⟨9, ⟨"s", "go", 1⟩, [0, 1]⟩], true, true, false⟩)
      [⟨"s", "go", 1⟩, ⟨"s", "back", 1⟩]).history.length = 2 ∧
    (dispatchAll pingPongModels (restart pingPongModels ⟨[("s", [0, 1])], 7,
      [⟨9, ⟨"s", "go", 1⟩, [0, 1]⟩], true, true, false⟩)
      [⟨"s", "go", 1⟩, ⟨"s", "back", 1⟩]).history.map (fun e => e.seq) =
      List.range 2 ∧
    (dispatchAll pingPongModels (restart pingPongModels ⟨[("s", [0, 1])], 7,
      [⟨9, ⟨"s", "go", 1⟩, [0, 1]⟩], true, true, false⟩)
      [⟨"s", "go", 1⟩, ⟨"s", "back", 1⟩]).history.map (fun e => e.event) =
      [⟨"s", "go", 1⟩, ⟨"s", "back", 1⟩] ∧
    (∀ (s : StreamState) (evt : Event) (sm : StreamModel) (fo : FireOutcome),
      (pingPongModels.find? fun x => x.schema = evt.schema) = some sm →
      fire sm.model ((lookupState s.stateMap evt.schema).getD sm.initial) evt.action
        evt.multiple = some fo →
      fo.ok = true →
      (dispatch pingPongModels s evt).1.history =
        s.history ++ [⟨s.seq, evt, fo.out.getD []⟩] ∧
      (dispatch pingPongModels s evt).1.seq = s.seq + 1 ∧
      lookupState (dispatch pingPongModels s evt).1.stateMap evt.schema =
        some (fo.out.getD [])) := by
  have hlen : (2 : Nat) = ([⟨"s", "go", 1⟩, ⟨"s", "back", 1⟩] : List Event).length := rfl
  rw [hlen]
  exact restart_history pingPongModels
    ⟨[("s", [0, 1])], 7, [⟨9, ⟨"s", "go", 1⟩, [0, 1]⟩], true, true, false⟩
    [⟨"s", "go", 1⟩, ⟨"s", "back", 1⟩] (by decide)

/-! Claim C7: index is idempotent.  The proof decomposes the arc loop
    into per-transition effects on the delta vector and on the guards
    object, and shows that re-applying the same guard assignments to an
    already-updated guards object changes nothing. -/

/-- Well-formed arc shapes, the ones a declaration built through the
    DSL can contain: an inhibitor arc has a place source and a
    transition target; a normal arc with a transition source has a
    place target, and one with a place source has a transition target
    (a normal arc with a null source only flips the ok flag). -/
def arcWF (arc : Arc) : Bool :=
  if arc.inhibit then
    match arc.source, arc.target with
    | NodeRef.placeRef _ _, NodeRef.transRef _ => true
    | _, _ => false
  else
    match arc.source, arc.target with
    | NodeRef.transRef _, NodeRef.placeRef _ _ => true
    | NodeRef.placeRef _ _, NodeRef.transRef _ => true
    | NodeRef.nullRef, _ => true
    | _, _ => false

/-- The effect of one arc on one transition record (identity when the
    arc targets a different transition). -/
def arcEffect (n : Nat) (arc : Arc) (t : Transition) : Transition :=
  if arc.inhibit then
    match arc.source, arc.target with
    | NodeRef.placeRef plabel poffset, NodeRef.transRef tlabel =>
      let g : GuardRec := ⟨plabel, writeAt (List.replicate n 0) poffset (0 - arc.weight)⟩
      if t.label = tlabel then { t with guards := setGuard t.guards g } else t
    | _, _ => t
  else
    match arc.source, arc.target with
    | NodeRef.transRef tlabel, NodeRef.placeRef _ poffset =>
      if t.label = tlabel then { t with delta := writeAt t.delta poffset arc.weight } else t
    | NodeRef.placeRef _ poffset, NodeRef.transRef tlabel =>
      if t.label = tlabel then { t with delta := writeAt t.delta poffset (0 - arc.weight) }
      else t
    | _, _ => t

/-- Whether processing this arc keeps the running ok flag (only a
    normal arc with a null source clears it). -/
def arcOkFlag (arc : Arc) : Bool :=
  match arc.source with
  | NodeRef.nullRef => arc.inhibit
  | _ => true

/-- The effect of one arc on the delta vector of the transition with
    the given label. -/
def deltaEffect (arc : Arc) (lbl : String) (d : List Int) : List Int :=
  if arc.inhibit then d
  else
    match arc.source, arc.target with
    | NodeRef.transRef tlabel, NodeRef.placeRef _ poffset =>
      if lbl = tlabel then writeAt d poffset arc.weight else d
    | NodeRef.placeRef _ poffset, NodeRef.transRef tlabel =>
      if lbl = tlabel then writeAt d poffset (0 - arc.weight) else d
    | _, _ => d

/-- The guard record one arc assigns into the guards object of the
    transition with the given label, when it is an inhibitor arc
    targeting that transition. -/
def guardUpd (n : Nat) (arc : Arc) (lbl : String) : Option GuardRec :=
  if arc.inhibit then
    match arc.source, arc.target with
    | NodeRef.placeRef plabel poffset, NodeRef.transRef tlabel =>
      if lbl = tlabel then
        some ⟨plabel, writeAt (List.replicate n 0) poffset (0 - arc.weight)⟩
      else none
    | _, _ => none
  else none

/-- The effect of one arc on the guards object of the transition with
    the given label. -/
def guardEffect (n : Nat) (arc : Arc) (lbl : String) (gs : List GuardRec) : List GuardRec :=
  match guardUpd n arc lbl with
  | none => gs
  | some g => setGuard gs g

/-- Repeated guard assignment. -/
def applyG (gs : List GuardRec) (us : List GuardRec) : List GuardRec :=
  us.foldl setGuard gs

/-- Lookup in a guards object by place label. -/
def lookupG (gs : List GuardRec) (k : String) : Option GuardRec :=
  gs.find? fun g => g.label = k

/-- The last assignment to a key in a sequence of guard assignments. -/
def lastUpd (us : List GuardRec) (k : String) : Option GuardRec :=
  us.foldl (fun acc u => if u.label = k then some u else acc) none

theorem arcEffect_split (n : Nat) (arc : Arc) (t : Transition) :
    arcEffect n arc t =
      ⟨t.label, t.role, deltaEffect arc t.label t.delta,
       guardEffect n arc t.label t.guards⟩ := by
  rcases arc with ⟨src, tgt, w, inh⟩
  cases inh
  · rcases src with ⟨pl, po⟩ | tl | _ <;> rcases tgt with ⟨pl2, po2⟩ | tl2 | _
    · rfl
    · by_cases h : t.label = tl2 <;>
        simp [arcEffect, deltaEffect, guardEffect, guardUpd, h]
    · rfl
    · by_cases h : t.label = tl <;>
        simp [arcEffect, deltaEffect, guardEffect, guardUpd, h]
    · rfl
    · rfl
    · rfl
    · rfl
    · rfl
  · rcases src with ⟨pl, po⟩ | tl | _ <;> rcases tgt with ⟨pl2, po2⟩ | tl2 | _
    · rfl
    · by_cases h : t.label = tl2 <;>
        simp [arcEffect, deltaEffect, guardEffect, guardUpd, h]
    · rfl
    · rfl
    · rfl
    · rfl
    · rfl
    · rfl
    · rfl

theorem find?_map_replace (gs : List GuardRec) (g : GuardRec) :
    ((gs.map fun x => if x.label = g.label then g else x).find?
        fun x => x.label = g.label) =
      if gs.any fun x => x.label = g.label then some g else none := by
  induction gs with
  | nil => simp
  | cons x rest ih =>
    by_cases h : x.label = g.label
    · simp only [List.map_cons, if_pos h, List.find?, List.any_cons]
      simp [h]
    · have hd : (decide (x.label = g.label)) = false := by simp [h]
      simp only [List.map_cons, if_neg h, List.find?, List.any_cons, hd, Bool.false_or]
      exact ih

theorem find?_append_guards (l1 l2 : List GuardRec) (p : GuardRec → Bool) :
    (l1 ++ l2).find? p =
      (match l1.find? p with
       | some x => some x
       | none => l2.find? p) := by
  induction l1 with
  | nil => simp
  | cons x rest ih =>
    by_cases h : p x = true
    · simp [List.find?, h]
    · have hd : p x = false := by simpa using h
      simp only [List.cons_append, List.find?, hd]
      exact ih

theorem lookupG_setGuard_self (gs : List GuardRec) (g : GuardRec) :
    lookupG (setGuard gs g) g.label = some g := by
  rw [setGuard]
  by_cases h : (gs.any fun x => x.label = g.label) = true
  · rw [if_pos h, lookupG, find?_map_replace, if_pos h]
  · rw [if_neg h, lookupG, find?_append_guards]
    have hnone : (gs.find? fun x => decide (x.label = g.label)) = none := by
      rw [List.find?_eq_none]
      intro x hx
      simp only [Bool.not_eq_true, decide_eq_false_iff_not]
      intro hc
      exact h (List.any_eq_true.mpr ⟨x, hx, by simp [hc]⟩)
    rw [hnone]
    simp [List.find?]

theorem lookupG_setGuard_other (gs : List GuardRec) (g : GuardRec) (k : String)
    (h : ¬k = g.label) :
    lookupG (setGuard gs g) k = lookupG gs k := by
  have hgk : (decide (g.label = k)) = false := by
    simp only [decide_eq_false_iff_not]
    intro hc
    exact h hc.symm
  rw [setGuard]
  by_cases hany : (gs.any fun x => x.label = g.label) = true
  · rw [if_pos hany, lookupG, lookupG, List.find?_map]
    have hpred : ((fun x : GuardRec => decide (x.label = k)) ∘
        fun x => if x.label = g.label then g else x) =
        fun x : GuardRec => decide (x.label = k) := by
      funext x
      by_cases hx : x.label = g.label
      · have hxk : (decide (x.label = k)) = false := by
          simp only [decide_eq_false_iff_not]
          rw [hx]
          intro hc
          exact h hc.symm
        simp only [Function.comp, if_pos hx, hgk, hxk]
      · simp [Function.comp, if_neg hx]
    rw [hpred]
    rcases hfind : gs.find? fun x : GuardRec => decide (x.label = k) with _ | y
    · simp
    · have hy := List.find?_some hfind
      have hyk : y.label = k := by simpa using hy
      have hyg : ¬y.label = g.label := by
        rw [hyk]
        exact h
      simp [if_neg hyg]
  · rw [if_neg hany, lookupG, lookupG, find?_append_guards]
    rcases hfind : gs.find? fun x : GuardRec => decide (x.label = k) with _ | y
    · simp [List.find?, hgk]
    · rfl

/-- The list of keys (place labels) of a guards object. -/
def keysG (gs : List GuardRec) : List String :=
  gs.map fun g => g.label

theorem mem_keysG_iff_any (gs : List GuardRec) (k : String) :
    k ∈ keysG gs ↔ (gs.any fun x => x.label = k) = true := by
  rw [keysG, List.mem_map, List.any_eq_true]
  constructor
  · rintro ⟨x, hx, rfl⟩
    exact ⟨x, hx, by simp⟩
  · rintro ⟨x, hx, hxl⟩
    exact ⟨x, hx, by simpa using hxl⟩

theorem keysG_setGuard (gs : List GuardRec) (g : GuardRec) :
    keysG (setGuard gs g) =
      if gs.any fun x => x.label = g.label then keysG gs else keysG gs ++ [g.label] := by
  rw [setGuard]
  by_cases h : (gs.any fun x => x.label = g.label) = true
  · rw [if_pos h, if_pos h, keysG, keysG, List.map_map]
    apply List.map_congr_left
    intro x _
    by_cases hx : x.label = g.label
    · simp [Function.comp, if_pos hx, hx]
    · simp [Function.comp, if_neg hx]
  · rw [if_neg h, if_neg h, keysG, keysG, List.map_append]
    rfl

theorem mem_keysG_setGuard_mono (gs : List GuardRec) (g : GuardRec) (k : String)
    (h : k ∈ keysG gs) : k ∈ keysG (setGuard gs g) := by
  rw [keysG_setGuard]
  by_cases hany : (gs.any fun x => x.label = g.label) = true
  · rw [if_pos hany]
    exact h
  · rw [if_neg hany]
    exact List.mem_append_left _ h

theorem mem_keysG_setGuard_self (gs : List GuardRec) (g : GuardRec) :
    g.label ∈ keysG (setGuard gs g) := by
  rw [keysG_setGuard]
  by_cases hany : (gs.any fun x => x.label = g.label) = true
  · rw [if_pos hany]
    exact (mem_keysG_iff_any gs g.label).mpr hany
  · rw [if_neg hany]
    exact List.mem_append_right _ (by simp)

theorem nodup_keysG_setGuard (gs : List GuardRec) (g : GuardRec)
    (h : (keysG gs).Nodup) : (keysG (setGuard gs g)).Nodup := by
  rw [keysG_setGuard]
  by_cases hany : (gs.any fun x => x.label = g.label) = true
  · rw [if_pos hany]
    exact h
  · rw [if_neg hany]
    rw [List.nodup_append]
    refine ⟨h, List.nodup_singleton _, ?_⟩
    intro a ha hb
    have hab : a = g.label := by simpa using hb
    rw [hab] at ha
    exact hany ((mem_keysG_iff_any gs g.label).mp ha)

theorem mem_keysG_applyG_mono (us gs : List GuardRec) (k : String)
    (h : k ∈ keysG gs) : k ∈ keysG (applyG gs us) := by
  induction us generalizing gs with
  | nil => exact h
  | cons u rest ih => exact ih (setGuard gs u) (mem_keysG_setGuard_mono gs u k h)

theorem mem_keysG_applyG_upd (us gs : List GuardRec) (u : GuardRec) (hu : u ∈ us) :
    u.label ∈ keysG (applyG gs us) := by
  induction us generalizing gs with
  | nil => exact absurd hu (by simp)
  | cons v rest ih =>
    rcases List.mem_cons.mp hu with rfl | hu'
    · exact mem_keysG_applyG_mono rest (setGuard gs u) u.label
        (mem_keysG_setGuard_self gs u)
    · exact ih (setGuard gs v) hu'

theorem keysG_applyG_stable (us h : List GuardRec)
    (hcov : ∀ u ∈ us, u.label ∈ keysG h) : keysG (applyG h us) = keysG h := by
  induction us generalizing h with
  | nil => rfl
  | cons u rest ih =>
    have hu : u.label ∈ keysG h := hcov u (by simp)
    have hkeys : keysG (setGuard h u) = keysG h := by
      rw [keysG_setGuard, if_pos ((mem_keysG_iff_any h u.label).mp hu)]
    have hcov' : ∀ v ∈ rest, v.label ∈ keysG (setGuard h u) := by
      intro v hv
      rw [hkeys]
      exact hcov v (by simp [hv])
    calc keysG (applyG (setGuard h u) rest) = keysG (setGuard h u) := ih _ hcov'
      _ = keysG h := hkeys

theorem nodup_keysG_applyG (us gs : List GuardRec) (h : (keysG gs).Nodup) :
    (keysG (applyG gs us)).Nodup := by
  induction us generalizing gs with
  | nil => exact h
  | cons u rest ih => exact ih (setGuard gs u) (nodup_keysG_setGuard gs u h)

theorem lastUpd_aux (us : List GuardRec) (k : String) (a : Option GuardRec) :
    us.foldl (fun acc u => if u.label = k then some u else acc) a =
      match us.foldl (fun acc u => if u.label = k then some u else acc) none with
      | some u => some u
      | none => a := by
  induction us generalizing a with
  | nil => rfl
  | cons u rest ih =>
    show rest.foldl _ (if u.label = k then some u else a) = _
    rw [ih]
    conv_rhs =>
      rw [show (u :: rest).foldl (fun acc u => if u.label = k then some u else acc) none =
        rest.foldl (fun acc u => if u.label = k then some u else acc)
          (if u.label = k then some u else none) from rfl]
      rw [ih]
    rcases hres : rest.foldl (fun acc u => if u.label = k then some u else acc) none with _ | x
    · by_cases hu : u.label = k <;> simp [hres, hu]
    · simp [hres]

theorem lookupG_applyG (us gs : List GuardRec) (k : String) :
    lookupG (applyG gs us) k =
      match lastUpd us k with
      | some u => some u
      | none => lookupG gs k := by
  induction us generalizing gs with
  | nil => rfl
  | cons u rest ih =>
    show lookupG (applyG (setGuard gs u) rest) k = _
    rw [ih]
    have hlast : lastUpd (u :: rest) k =
        match lastUpd rest k with
        | some x => some x
        | none => if u.label = k then some u else none := by
      rw [lastUpd, lastUpd]
      exact lastUpd_aux rest k (if u.label = k then some u else none)
    rw [hlast]
    rcases hres : lastUpd rest k with _ | x
    · by_cases hu : u.label = k
      · subst hu
        simp [lookupG_setGuard_self gs u]
      · have : ¬k = u.label := fun hc => hu hc.symm
        simp [hu, lookupG_setGuard_other gs u k this]
    · rfl

theorem lookupG_eq_none_of_not_mem (gs : List GuardRec) (k : String)
    (h : ¬k ∈ keysG gs) : lookupG gs k = none := by
  rw [lookupG, List.find?_eq_none]
  intro x hx
  simp only [Bool.not_eq_true, decide_eq_false_iff_not]
  intro hc
  exact h (by rw [keysG, List.mem_map]; exact ⟨x, hx, hc⟩)

theorem keysG_lookup_ext : ∀ (h g : List GuardRec),
    (keysG h).Nodup → (keysG g).Nodup → keysG h = keysG g →
    (∀ k, lookupG h k = lookupG g k) → h = g := by
  intro h
  induction h with
  | nil =>
    intro g _ _ hkeys _
    have : keysG g = [] := hkeys.symm
    rw [keysG] at this
    exact (List.map_eq_nil.mp this).symm
  | cons x h2 ih =>
    intro g hndh hndg hkeys hlook
    rcases g with _ | ⟨y, g2⟩
    · exact absurd hkeys (by simp [keysG])
    · have hk2 : x.label = y.label ∧ keysG h2 = keysG g2 := by
        have hc := hkeys
        rw [keysG, keysG, List.map_cons, List.map_cons] at hc
        exact ⟨(List.cons_eq_cons.mp hc).1, (List.cons_eq_cons.mp hc).2⟩
      have hx : lookupG (x :: h2) x.label = some x := by
        rw [lookupG, List.find?]
        simp
      have hy : lookupG (y :: g2) x.label = some y := by
        rw [lookupG, List.find?, hk2.1]
        simp
      have hxy2 : x = y := by
        have hv := hlook x.label
        rw [hx, hy] at hv
        exact Option.some.inj hv
      subst hxy2
      have hndh2 : (keysG h2).Nodup := by
        rw [keysG, List.map_cons] at hndh
        exact (List.nodup_cons.mp hndh).2
      have hndg2 : (keysG g2).Nodup := by
        rw [keysG, List.map_cons] at hndg
        exact (List.nodup_cons.mp hndg).2
      have hlook2 : ∀ k, lookupG h2 k = lookupG g2 k := by
        intro k
        by_cases hk : k = x.label
        · have hnm : ¬x.label ∈ keysG h2 := by
            rw [keysG, List.map_cons] at hndh
            exact (List.nodup_cons.mp hndh).1
          have hnm2 : ¬x.label ∈ keysG g2 := by
            rw [keysG, List.map_cons] at hndg
            exact (List.nodup_cons.mp hndg).1
          rw [hk, lookupG_eq_none_of_not_mem h2 x.label hnm,
            lookupG_eq_none_of_not_mem g2 x.label hnm2]
        · have hd : (decide (x.label = k)) = false := by
            simp only [decide_eq_false_iff_not]
            intro hc
            exact hk hc.symm
          have hv := hlook k
          rw [lookupG, lookupG, List.find?, List.find?, hd] at hv
          exact hv
      rw [ih g2 hndh2 hndg2 hk2.2 hlook2]

theorem applyG_idem (gs us : List GuardRec) (hnd : (keysG gs).Nodup) :
    applyG (applyG gs us) us = applyG gs us := by
  have hnd1 : (keysG (applyG gs us)).Nodup := nodup_keysG_applyG us gs hnd
  have hnd2 : (keysG (applyG (applyG gs us) us)).Nodup :=
    nodup_keysG_applyG us (applyG gs us) hnd1
  have hcov : ∀ u ∈ us, u.label ∈ keysG (applyG gs us) := by
    intro u hu
    exact mem_keysG_applyG_upd us gs u hu
  have hkeys : keysG (applyG (applyG gs us) us) = keysG (applyG gs us) :=
    keysG_applyG_stable us (applyG gs us) hcov
  have hlook : ∀ k, lookupG (applyG (applyG gs us) us) k = lookupG (applyG gs us) k := by
    intro k
    rw [lookupG_applyG, lookupG_applyG us gs k]
    cases lastUpd us k <;> rfl
  exact keysG_lookup_ext _ _ hnd2 hnd1 hkeys hlook

/-- The fold of the arc loop, named for use in proofs. -/
def arcs_foldl_step (n : Nat) (arcs : List Arc) (ts : List Transition) (ok : Bool) :
    Option (List Transition × Bool) :=
  arcs.foldl (fun acc arc => acc.bind fun a => indexArc n a arc) (some (ts, ok))

theorem indexArc_wf (n : Nat) (ts : List Transition) (ok : Bool) (arc : Arc)
    (hwf : arcWF arc = true) :
    indexArc n (ts, ok) arc =
      some (ts.map fun t => arcEffect n arc t, ok && arcOkFlag arc) := by
  rcases arc with ⟨src, tgt, w, inh⟩
  cases inh <;> rcases src with ⟨pl, po⟩ | tl | _ <;> rcases tgt with ⟨pl2, po2⟩ | tl2 | _ <;>
    simp_all [indexArc, arcEffect, updateTrans, arcOkFlag, arcWF]

theorem indexFold_wf (n : Nat) (arcs : List Arc) (ts : List Transition) (ok : Bool)
    (hwf : ∀ arc ∈ arcs, arcWF arc = true) :
    arcs.foldl (fun acc arc => acc.bind fun a => indexArc n a arc) (some (ts, ok)) =
      some (ts.map fun t => arcs.foldl (fun t a => arcEffect n a t) t,
            ok && arcs.all arcOkFlag) := by
  induction arcs generalizing ts ok with
  | nil =>
    simp only [List.foldl_nil, List.all_nil, Bool.and_true]
    rw [List.map_id']
  | cons a rest ih =>
    have hstep : arcs_foldl_step n (a :: rest) ts ok =
        rest.foldl (fun acc arc => acc.bind fun x => indexArc n x arc)
          (some (ts.map fun t => arcEffect n a t, ok && arcOkFlag a)) := by
      rw [arcs_foldl_step, List.foldl_cons]
      congr 1
      exact indexArc_wf n ts ok a (hwf a (by simp))
    rw [show (a :: rest).foldl (fun acc arc => acc.bind fun x => indexArc n x arc)
        (some (ts, ok)) = arcs_foldl_step n (a :: rest) ts ok from rfl, hstep,
      ih (ts.map fun t => arcEffect n a t) (ok && arcOkFlag a)
        (fun arc harc => hwf arc (by simp [harc]))]
    rw [List.map_map, List.all_cons, ← Bool.and_assoc]
    rfl

theorem foldl_arcEffect_split (n : Nat) (arcs : List Arc) (t : Transition) :
    arcs.foldl (fun t a => arcEffect n a t) t =
      ⟨t.label, t.role,
       arcs.foldl (fun d a => deltaEffect a t.label d) t.delta,
       arcs.foldl (fun g a => guardEffect n a t.label g) t.guards⟩ := by
  induction arcs generalizing t with
  | nil => rfl
  | cons a rest ih =>
    rw [List.foldl_cons, List.foldl_cons, List.foldl_cons, arcEffect_split, ih]

theorem foldl_guardEffect_filterMap (n : Nat) (arcs : List Arc) (lbl : String)
    (gs : List GuardRec) :
    arcs.foldl (fun g a => guardEffect n a lbl g) gs =
      applyG gs (arcs.filterMap fun a => guardUpd n a lbl) := by
  induction arcs generalizing gs with
  | nil => rfl
  | cons a rest ih =>
    rw [List.foldl_cons]
    rcases hupd : guardUpd n a lbl with _ | g
    · have h2 : guardEffect n a lbl gs = gs := by rw [guardEffect, hupd]
      rw [h2, ih]
      simp only [List.filterMap_cons, hupd]
    · have h2 : guardEffect n a lbl gs = setGuard gs g := by rw [guardEffect, hupd]
      rw [h2, ih]
      simp only [List.filterMap_cons, hupd]
      rfl

theorem indexDef_eq (d : NetDef) (hwf : ∀ arc ∈ d.arcs, arcWF arc = true) :
    indexDef d = some
      ((d.transitions.map fun t => { t with delta := List.replicate d.placeCount 0 }).map
        (fun t => d.arcs.foldl (fun t a => arcEffect d.placeCount a t) t),
       d.arcs.all arcOkFlag) := by
  rw [indexDef]
  rw [indexFold_wf d.placeCount d.arcs
    (d.transitions.map fun t => { t with delta := List.replicate d.placeCount 0 }) true hwf]
  rw [Bool.true_and]

theorem foldl_arcEffect_mk (n : Nat) (arcs : List Arc) (lb rl : String)
    (dl : List Int) (gs : List GuardRec) :
    arcs.foldl (fun x a => arcEffect n a x) ⟨lb, rl, dl, gs⟩ =
      ⟨lb, rl, arcs.foldl (fun d2 a => deltaEffect a lb d2) dl,
       arcs.foldl (fun g a => guardEffect n a lb g) gs⟩ :=
  foldl_arcEffect_split n arcs ⟨lb, rl, dl, gs⟩

theorem foldF_reset_idem (n : Nat) (arcs : List Arc) (lb rl : String)
    (gs : List GuardRec) (hnd : (keysG gs).Nodup) :
    arcs.foldl (fun x a => arcEffect n a x)
      ⟨(arcs.foldl (fun x a => arcEffect n a x)
          (⟨lb, rl, List.replicate n 0, gs⟩ : Transition)).label,
       (arcs.foldl (fun x a => arcEffect n a x)
          (⟨lb, rl, List.replicate n 0, gs⟩ : Transition)).role,
       List.replicate n 0,
       (arcs.foldl (fun x a => arcEffect n a x)
          (⟨lb, rl, List.replicate n 0, gs⟩ : Transition)).guards⟩ =
    arcs.foldl (fun x a => arcEffect n a x)
      (⟨lb, rl, List.replicate n 0, gs⟩ : Transition) := by
  rw [foldl_arcEffect_mk n arcs lb rl (List.replicate n 0) gs]
  show arcs.foldl (fun x a => arcEffect n a x)
      (⟨lb, rl, List.replicate n 0,
        arcs.foldl (fun g a => guardEffect n a lb g) gs⟩ : Transition) =
    (⟨lb, rl, arcs.foldl (fun d2 a => deltaEffect a lb d2) (List.replicate n 0),
      arcs.foldl (fun g a => guardEffect n a lb g) gs⟩ : Transition)
  rw [foldl_arcEffect_mk]
  rw [show (arcs.foldl (fun g a => guardEffect n a lb g)
      (arcs.foldl (fun g a => guardEffect n a lb g) gs)) =
    arcs.foldl (fun g a => guardEffect n a lb g) gs from by
      rw [foldl_guardEffect_filterMap, foldl_guardEffect_filterMap]
      exact applyG_idem gs (arcs.filterMap fun a => guardUpd n a lb) hnd]

/-- Claim C7: for every valid declaration (well-formed arcs, no
    duplicate guard keys on any transition) with a fixed arc list,
    indexing is idempotent: running index twice in a row leaves every
    transition (its delta vector and every guard) identical to the
    state after running it once, and returns the same ok flag. -/
theorem index_idempotent (d : NetDef)
    (hwf : ∀ arc ∈ d.arcs, arcWF arc = true)
    (hnd : ∀ t ∈ d.transitions, ((t.guards.map fun g => g.label)).Nodup) :
    ∃ ts1 ok1, indexDef d = some (ts1, ok1) ∧
      indexDef { d with transitions := ts1 } = some (ts1, ok1) := by
  refine ⟨_, _, indexDef_eq d hwf, ?_⟩
  have h2 : indexDef ⟨d.placeCount,
      (d.transitions.map fun t => { t with delta := List.replicate d.placeCount 0 }).map
        (fun t => d.arcs.foldl (fun t a => arcEffect d.placeCount a t) t),
      d.arcs⟩ =
    some
      ((((d.transitions.map fun t => { t with delta := List.replicate d.placeCount 0 }).map
          (fun t => d.arcs.foldl (fun t a => arcEffect d.placeCount a t) t)).map
            (fun t => { t with delta := List.replicate d.placeCount 0 })).map
        (fun t => d.arcs.foldl (fun t a => arcEffect d.placeCount a t) t),
       d.arcs.all arcOkFlag) := indexDef_eq _ hwf
  rw [h2]
  rw [Option.some.injEq, Prod.mk.injEq]
  refine ⟨?_, rfl⟩
  rw [List.map_map, List.map_map, List.map_map, List.map_map]
  apply List.map_congr_left
  intro t ht
  have hguards : (keysG t.guards).Nodup := hnd t ht
  obtain ⟨lb, rl, dl, gs⟩ := t
  exact foldF_reset_idem d.placeCount d.arcs lb rl gs hguards

/-- A concrete declaration for the index_idempotent witness: one
    transition consuming from place p0, producing into p1, inhibited by
    p0 with weight 2. -/
def idemExampleDef : NetDef :=
  ⟨2, [⟨"t", "r", [], []⟩],
   [⟨NodeRef.placeRef "p0" 0, NodeRef.transRef "t", 1, false⟩,
    ⟨NodeRef.transRef "t", NodeRef.placeRef "p1" 1, 1, false⟩,
    ⟨NodeRef.placeRef "p0" 0, NodeRef.transRef "t", 2, true⟩]⟩

/-- Witness for index_idempotent at a concrete declaration. -/
theorem index_idempotent_witness :
    ∃ ts1 ok1, indexDef idemExampleDef = some (ts1, ok1) ∧
      indexDef { idemExampleDef with transitions := ts1 } = some (ts1, ok1) :=
  index_idempotent idemExampleDef (by decide) (by decide)

/-! Reference model of the stream: the source pushes the live out array
    into both the state map and the history entry, and the next
    accepted commit on the same schema mutates that array in place.
    Here the arrays live in an explicit heap and the state map and
    history hold references, so the aliasing is visible. -/

/-- A history entry in the reference model: the marking is a heap
    reference, as in the source where the entry holds the live out
    array itself. -/
structure RefHistEntry where
  seq : Nat
  event : Event
  stateRef : Nat
deriving DecidableEq, Repr

/-- The state of a PFlowStream with array identity made explicit: heap
    is the arena of marking arrays; the state map and history hold
    references into it. -/
structure RefStreamState where
  heap : List (List Int)
  stateMap : List (String × Nat)
  seq : Nat
  history : List RefHistEntry
  hasReload : Bool
  hasFail : Bool
  hasEvery : Bool
deriving DecidableEq, Repr

/-- Lookup in the schema-keyed reference map. -/
def lookupRef (sm : List (String × Nat)) (schema : String) : Option Nat :=
  (sm.find? fun kv => kv.1 = schema).map fun kv => kv.2

/-- Map.set semantics on the reference map. -/
def setRef (sm : List (String × Nat)) (schema : String) (v : Nat) :
    List (String × Nat) :=
  if sm.any fun kv => kv.1 = schema then
    sm.map fun kv => if kv.1 = schema then (schema, v) else kv
  else sm ++ [(schema, v)]

/-- Map.delete semantics on the reference map. -/
def removeRef (sm : List (String × Nat)) (schema : String) : List (String × Nat) :=
  sm.filter fun kv => ¬kv.1 = schema

/-- The marking array fire receives: the dereferenced persisted array,
    or a fresh initial vector when none is persisted. -/
def refStateOf (s : RefStreamState) (schema : String) (init : List Int) : List Int :=
  match lookupRef s.stateMap schema with
  | some r => s.heap.getD r []
  | none => init

/-- The heap after the commit loop of fire: when the marking came from
    the state map, the referenced array has been mutated in place to
    the new marking; a fresh initial vector leaves the heap alone. -/
def heapAfterCommit (s : RefStreamState) (schema : String) (newState : List Int) :
    List (List Int) :=
  match lookupRef s.stateMap schema with
  | some r => s.heap.set r newState
  | none => s.heap

/-- dispatch in the reference model.  On acceptance the commit loop of
    fire has already mutated the persisted array in place; the resolve
    callback then stores the distinct out array as a new heap cell into
    the state map and pushes the same reference into history, so the
    newest history entry and the persisted marking alias one array,
    while the previous entry keeps pointing at the now-overwritten
    cell. -/
def dispatchRef (models : List StreamModel) (s : RefStreamState) (evt : Event) :
    RefStreamState × Except DispatchError FireOutcome :=
  match models.find? fun sm => sm.schema = evt.schema with
  | none => (s, Except.error DispatchError.modelNotFound)
  | some sm =>
    match fire sm.model (refStateOf s evt.schema sm.initial) evt.action evt.multiple with
    | none => (s, Except.error DispatchError.actionNotFound)
    | some fo =>
      if fo.ok then
        let s' : RefStreamState :=
          { s with
            heap := heapAfterCommit s evt.schema fo.newState ++ [fo.out.getD []]
            stateMap := setRef s.stateMap evt.schema
              (heapAfterCommit s evt.schema fo.newState).length
            history := s.history ++
              [⟨s.seq, evt, (heapAfterCommit s evt.schema fo.newState).length⟩]
            seq := s.seq + 1 }
        if s.hasReload then (s', Except.ok fo) else (s', Except.error DispatchError.handlerMissing)
      else
        if s.hasFail then (s, Except.ok fo) else (s, Except.error DispatchError.handlerMissing)

/-- restart in the reference model: reset the counter, clear history,
    delete every registered reference (the arrays themselves are
    garbage, never freed, as in the source). -/
def restartRef (models : List StreamModel) (s : RefStreamState) : RefStreamState :=
  { s with
    seq := 0
    history := []
    stateMap := models.foldl (fun acc sm => removeRef acc sm.schema) s.stateMap }

/-- Folding dispatchRef over a list of events. -/
def dispatchRefAll (models : List StreamModel) (s : RefStreamState) (evts : List Event) :
    RefStreamState :=
  evts.foldl (fun s evt => (dispatchRef models s evt).1) s

/-- True when dispatching the event from this reference stream state
    finds its model, runs fire without a fatal error, and is accepted. -/
def acceptedRefStep (models : List StreamModel) (s : RefStreamState) (evt : Event) : Bool :=
  match models.find? fun sm => sm.schema = evt.schema with
  | none => false
  | some sm =>
    match fire sm.model (refStateOf s evt.schema sm.initial) evt.action evt.multiple with
    | none => false
    | some fo => fo.ok

/-- True when every dispatch in the sequence is accepted, each judged
    from the reference stream state the previous dispatches produced. -/
def allAcceptedRef (models : List StreamModel) (s : RefStreamState) : List Event → Bool
  | [] => true
  | evt :: rest =>
    acceptedRefStep models s evt && allAcceptedRef models (dispatchRef models s evt).1 rest

theorem lookupRef_setRef (sm : List (String × Nat)) (schema : String) (v : Nat) :
    lookupRef (setRef sm schema v) schema = some v := by
  induction sm with
  | nil => simp [setRef, lookupRef]
  | cons kv rest ih =>
    by_cases h : kv.1 = schema
    · have hany : (kv :: rest).any (fun x => x.1 = schema) = true := by
        simp [List.any_cons, h]
      rw [setRef, if_pos hany]
      simp [lookupRef, List.find?, h]
    · by_cases h2 : rest.any (fun x => x.1 = schema) = true
      · have hany : (kv :: rest).any (fun x => x.1 = schema) = true := by
          simp [List.any_cons, h2]
        rw [setRef, if_pos hany]
        rw [setRef, if_pos h2] at ih
        simp only [List.map_cons, if_neg h]
        rw [lookupRef] at ih ⊢
        simp only [List.find?]
        have hd : (decide (kv.1 = schema)) = false := by simp [h]
        rw [hd]
        exact ih
      · have hany : ¬(kv :: rest).any (fun x => x.1 = schema) = true := by
          simp only [List.any_cons, Bool.or_eq_true, decide_eq_true_eq]
          push_neg
          exact ⟨h, by simpa using h2⟩
        rw [setRef, if_neg hany]
        rw [setRef, if_neg (by simpa using h2)] at ih
        rw [lookupRef] at ih ⊢
        simp only [List.cons_append, List.find?]
        have hd : (decide (kv.1 = schema)) = false := by simp [h]
        rw [hd]
        exact ih

theorem lookupRef_removeRef_self (sm : List (String × Nat)) (k : String) :
    lookupRef (removeRef sm k) k = none := by
  rw [lookupRef, Option.map_eq_none', List.find?_eq_none]
  intro kv hkv
  rw [removeRef] at hkv
  have h := List.of_mem_filter hkv
  simpa using h

theorem lookupRef_none_removeRef (sm : List (String × Nat)) (k k2 : String)
    (h : lookupRef sm k = none) :
    lookupRef (removeRef sm k2) k = none := by
  rw [lookupRef, Option.map_eq_none', List.find?_eq_none] at h ⊢
  intro kv hkv
  exact h kv (List.mem_of_mem_filter hkv)

theorem foldl_removeRef_none (ms : List StreamModel) (acc : List (String × Nat))
    (k : String) (h : lookupRef acc k = none) :
    lookupRef (ms.foldl (fun a sm => removeRef a sm.schema) acc) k = none := by
  induction ms generalizing acc with
  | nil => exact h
  | cons m rest ih =>
    exact ih (removeRef acc m.schema) (lookupRef_none_removeRef acc k m.schema h)

theorem foldl_removeRef_mem (ms : List StreamModel) (acc : List (String × Nat))
    (k : String) (h : ∃ m ∈ ms, m.schema = k) :
    lookupRef (ms.foldl (fun a sm => removeRef a sm.schema) acc) k = none := by
  induction ms generalizing acc with
  | nil =>
    rcases h with ⟨m, hm, _⟩
    exact absurd hm (by simp)
  | cons m rest ih =>
    rcases h with ⟨m2, hm2, hk⟩
    rcases List.mem_cons.mp hm2 with rfl | hm2'
    · subst hk
      exact foldl_removeRef_none rest _ _ (lookupRef_removeRef_self acc m2.schema)
    · exact ih (removeRef acc m.schema) ⟨m2, hm2', hk⟩

theorem getD_append_self (l : List (List Int)) (x : List Int) :
    (l ++ [x]).getD l.length [] = x := by
  rw [List.getD_eq_getElem?_getD, List.getElem?_append_right (Nat.le_refl l.length)]
  simp

theorem getD_append_left (l l2 : List (List Int)) (r : Nat) (h : r < l.length) :
    (l ++ l2).getD r [] = l.getD r [] := by
  rw [List.getD_eq_getElem?_getD, List.getD_eq_getElem?_getD, List.getElem?_append, if_pos h]

theorem getD_set_self (l : List (List Int)) (r : Nat) (v : List Int) (h : r < l.length) :
    (l.set r v).getD r [] = v := by
  rw [List.getD_eq_getElem?_getD, List.getElem?_set_self]
  · rfl
  · exact h

theorem heapAfterCommit_length (s : RefStreamState) (schema : String) (v : List Int) :
    (heapAfterCommit s schema v).length = s.heap.length := by
  rw [heapAfterCommit]
  cases lookupRef s.stateMap schema <;> simp

theorem dispatchRef_accepted (models : List StreamModel) (s : RefStreamState)
    (evt : Event) (sm : StreamModel) (fo : FireOutcome)
    (hfind : (models.find? fun x => x.schema = evt.schema) = some sm)
    (hfire : fire sm.model (refStateOf s evt.schema sm.initial) evt.action evt.multiple =
      some fo)
    (hok : fo.ok = true) :
    (dispatchRef models s evt).1 =
      { s with
        heap := heapAfterCommit s evt.schema fo.newState ++ [fo.out.getD []]
        stateMap := setRef s.stateMap evt.schema
          (heapAfterCommit s evt.schema fo.newState).length
        history := s.history ++
          [⟨s.seq, evt, (heapAfterCommit s evt.schema fo.newState).length⟩]
        seq := s.seq + 1 } := by
  rw [dispatchRef, hfind]
  simp only [hfire, hok]
  by_cases hre : s.hasReload <;> simp [hre]

theorem acceptedRefStep_elim (models : List StreamModel) (s : RefStreamState)
    (evt : Event) (h : acceptedRefStep models s evt = true) :
    ∃ sm, (models.find? fun x => x.schema = evt.schema) = some sm ∧
      ∃ fo, fire sm.model (refStateOf s evt.schema sm.initial) evt.action evt.multiple =
          some fo ∧ fo.ok = true := by
  rw [acceptedRefStep] at h
  split at h
  next => exact absurd h (by simp)
  next sm hf =>
    split at h
    next => exact absurd h (by simp)
    next fo hfire => exact ⟨sm, hf, fo, hfire, h⟩

theorem dispatchRefAll_hist (models : List StreamModel) (evts : List Event)
    (s : RefStreamState) (h : allAcceptedRef models s evts = true) :
    (dispatchRefAll models s evts).history.map (fun e => e.seq) =
      s.history.map (fun e => e.seq) ++ List.range' s.seq evts.length ∧
    (dispatchRefAll models s evts).history.map (fun e => e.event) =
      s.history.map (fun e => e.event) ++ evts ∧
    (dispatchRefAll models s evts).seq = s.seq + evts.length := by
  induction evts generalizing s with
  | nil =>
    refine ⟨by simp [dispatchRefAll, List.range'], by simp [dispatchRefAll],
      by simp [dispatchRefAll]⟩
  | cons evt rest ih =>
    rw [allAcceptedRef, Bool.and_eq_true] at h
    rcases h with ⟨hstep, hrest⟩
    rcases acceptedRefStep_elim models s evt hstep with ⟨sm, hfind, fo, hfire, hok⟩
    have hs1 := dispatchRef_accepted models s evt sm fo hfind hfire hok
    have hall : dispatchRefAll models s (evt :: rest) =
        dispatchRefAll models (dispatchRef models s evt).1 rest := by
      rw [dispatchRefAll, List.foldl_cons]
      rfl
    rcases ih (dispatchRef models s evt).1 hrest with ⟨ih1, ih2, ih3⟩
    rw [hall]
    refine ⟨?_, ?_, ?_⟩
    · rw [ih1, hs1]
      show (s.history ++ [(⟨s.seq, evt,
            (heapAfterCommit s evt.schema fo.newState).length⟩ : RefHistEntry)]).map
          (fun e => e.seq) ++ List.range' (s.seq + 1) rest.length =
        s.history.map (fun e => e.seq) ++ List.range' s.seq (rest.length + 1)
      rw [List.map_append, List.range'_succ, List.append_assoc]
      rfl
    · rw [ih2, hs1]
      show (s.history ++ [(⟨s.seq, evt,
            (heapAfterCommit s evt.schema fo.newState).length⟩ : RefHistEntry)]).map
          (fun e => e.event) ++ rest =
        s.history.map (fun e => e.event) ++ (evt :: rest)
      rw [List.map_append, List.append_assoc]
      rfl
    · rw [ih3, hs1]
      show s.seq + 1 + rest.length = s.seq + (rest.length + 1)
      omega

/-- Claim C6 (amended): restart resets the sequence counter to 0,
    empties the history and deletes every registered persisted marking;
    after restart, N dispatches that are all accepted yield a history
    of exactly N entries with sequence numbers 0..N-1 in order
    recording the events, and each accepted dispatch appends one entry
    that, at the moment it is appended, references the resulting
    marking, which is also what is persisted.  But the entry aliases
    the live marking array: the next accepted dispatch of the same
    schema overwrites that array in place with its own new marking, so
    in the final history an earlier entry need not still hold the
    marking its own dispatch produced (refuted for the final history by
    restart_history_aliasing_cx). -/
theorem restart_history_ref (models : List StreamModel) (s0 : RefStreamState)
    (evts : List Event)
    (h : allAcceptedRef models (restartRef models s0) evts = true) :
    (restartRef models s0).seq = 0 ∧
    (restartRef models s0).history = [] ∧
    (∀ sm ∈ models, lookupRef (restartRef models s0).stateMap sm.schema = none) ∧
    (dispatchRefAll models (restartRef models s0) evts).history.length = evts.length ∧
    (dispatchRefAll models (restartRef models s0) evts).history.map (fun e => e.seq) =
      List.range evts.length ∧
    (dispatchRefAll models (restartRef models s0) evts).history.map (fun e => e.event) =
      evts ∧
    (∀ (s : RefStreamState) (evt : Event) (sm : StreamModel) (fo : FireOutcome),
      (models.find? fun x => x.schema = evt.schema) = some sm →
      fire sm.model (refStateOf s evt.schema sm.initial) evt.action evt.multiple =
        some fo →
      fo.ok = true →
      ∃ newRef,
        (dispatchRef models s evt).1.history = s.history ++ [⟨s.seq, evt, newRef⟩] ∧
        (dispatchRef models s evt).1.seq = s.seq + 1 ∧
        lookupRef (dispatchRef models s evt).1.stateMap evt.schema = some newRef ∧
        (dispatchRef models s evt).1.heap.getD newRef [] = fo.out.getD [] ∧
        (∀ r, lookupRef s.stateMap evt.schema = some r → r < s.heap.length →
          (dispatchRef models s evt).1.heap.getD r [] = fo.newState)) := by
  rcases dispatchRefAll_hist models evts (restartRef models s0) h with ⟨h1, h2, _⟩
  have hseq : (restartRef models s0).seq = 0 := rfl
  have hhist : (restartRef models s0).history = [] := rfl
  refine ⟨hseq, hhist, ?_, ?_, ?_, ?_, ?_⟩
  · intro sm hsm
    exact foldl_removeRef_mem models s0.stateMap sm.schema ⟨sm, hsm, rfl⟩
  · have := congrArg List.length h2
    simpa [hhist] using this
  · rw [h1, hhist, hseq]
    simp [List.range_eq_range']
  · rw [h2, hhist]
    simp
  · intro s evt sm fo hfind hfire hok
    have hs1 := dispatchRef_accepted models s evt sm fo hfind hfire hok
    refine ⟨(heapAfterCommit s evt.schema fo.newState).length, ?_, ?_, ?_, ?_, ?_⟩
    · rw [hs1]
    · rw [hs1]
    · rw [hs1]
      exact lookupRef_setRef s.stateMap evt.schema
        (heapAfterCommit s evt.schema fo.newState).length
    · rw [hs1]
      exact getD_append_self (heapAfterCommit s evt.schema fo.newState) (fo.out.getD [])
    · intro r hr hlt
      rw [hs1]
      show (heapAfterCommit s evt.schema fo.newState ++ [fo.out.getD []]).getD r [] =
        fo.newState
      rw [getD_append_left _ _ r (by rw [heapAfterCommit_length]; exact hlt)]
      rw [heapAfterCommit, hr]
      exact getD_set_self s.heap r fo.newState hlt

/-- The reference-model run of the counterexample and witness: restart
    a used stream over the pingPong net, then dispatch go and back. -/
def pingPongRefStart : RefStreamState :=
  ⟨[[5]], [("s", 0)], 7, [⟨3, ⟨"s", "go", 1⟩, 0⟩], true, true, false⟩

/-- The final reference stream state after restart and the two accepted
    dispatches go, back. -/
def pingPongRefRun : RefStreamState :=
  dispatchRefAll pingPongModels (restartRef pingPongModels pingPongRefStart)
    [⟨"s", "go", 1⟩, ⟨"s", "back", 1⟩]

/-- Counterexample to claim C6 as stated: after restart and the two
    accepted dispatches go then back, the resulting marking of go was
    [0, 1] (its fire out vector, also what was persisted), yet in the
    final history the entry of go dereferences to [1, 0]: the commit of
    back overwrote the aliased array in place, so the entry no longer
    records the marking its dispatch produced. -/
theorem restart_history_aliasing_cx :
    allAcceptedRef pingPongModels (restartRef pingPongModels pingPongRefStart)
      [⟨"s", "go", 1⟩, ⟨"s", "back", 1⟩] = true ∧
    (∃ fo, fire pingPongModel [1, 0] "go" 1 = some fo ∧ fo.ok = true ∧
      fo.out = some [0, 1]) ∧
    pingPongRefRun.history.map (fun e => e.seq) = [0, 1] ∧
    pingPongRefRun.history.map (fun e => e.event) =
      [⟨"s", "go", 1⟩, ⟨"s", "back", 1⟩] ∧
    pingPongRefRun.history.map (fun e => pingPongRefRun.heap.getD e.stateRef []) =
      [[1, 0], [1, 0]] ∧
    ¬([1, 0] : List Int) = [0, 1] := by
  refine ⟨by decide, ⟨⟨some [0, 1], true, "r", [0, 1]⟩, by decide, rfl, rfl⟩,
    by decide, by decide, by decide, by decide⟩

/-- Witness for restart_history_ref at a concrete instance. -/
theorem restart_history_ref_witness :
    (restartRef pingPongModels pingPongRefStart).seq = 0 ∧
    (restartRef pingPongModels pingPongRefStart).history = [] ∧
    (∀ sm ∈ pingPongModels,
      lookupRef (restartRef pingPongModels pingPongRefStart).stateMap sm.schema = none) ∧
    (dispatchRefAll pingPongModels (restartRef pingPongModels pingPongRefStart)
      [⟨"s", "go", 1⟩, ⟨"s", "back", 1⟩]).history.length = 2 ∧
    (dispatchRefAll pingPongModels (restartRef pingPongModels pingPongRefStart)
      [⟨"s", "go", 1⟩, ⟨"s", "back", 1⟩]).history.map (fun e => e.seq) =
      List.range 2 ∧
    (dispatchRefAll pingPongModels (restartRef pingPongModels pingPongRefStart)
      [⟨"s", "go", 1⟩, ⟨"s", "back", 1⟩]).history.map (fun e => e.event) =
      [⟨"s", "go", 1⟩, ⟨"s", "back", 1⟩] ∧
    (∀ (s : RefStreamState) (evt : Event) (sm : StreamModel) (fo : FireOutcome),
      (pingPongModels.find? fun x => x.schema = evt.schema) = some sm →
      fire sm.model (refStateOf s evt.schema sm.initial) evt.action evt.multiple =
        some fo →
      fo.ok = true →
      ∃ newRef,
        (dispatchRef pingPongModels s evt).1.history =
          s.history ++ [⟨s.seq, evt, newRef⟩] ∧
        (dispatchRef pingPongModels s evt).1.seq = s.seq + 1 ∧
        lookupRef (dispatchRef pingPongModels s evt).1.stateMap evt.schema =
          some newRef ∧
        (dispatchRef pingPongModels s evt).1.heap.getD newRef [] = fo.out.getD [] ∧
        (∀ r, lookupRef s.stateMap evt.schema = some r → r < s.heap.length →
          (dispatchRef pingPongModels s evt).1.heap.getD r [] = fo.newState)) := by
  have hlen : (2 : Nat) = ([⟨"s", "go", 1⟩, ⟨"s", "back", 1⟩] : List Event).length := rfl
  rw [hlen]
  exact restart_history_ref pingPongModels pingPongRefStart
    [⟨"s", "go", 1⟩, ⟨"s", "back", 1⟩] (by decide)

end PFlow
